import Mathlib

/-!
Verification of the EDIFACT structural matching engine found in
`edifact/messages/base.py`.  The Python classes `PlaceholderSegment` and
`SegmentGroup` form the grammar model, `DummySegment` and `Group` form the
result model, and the methods `Message.process_segments`, `process_end`,
`process_group`, `process_segment`, `get_element`, `add_group`,
`add_segment`, `add_to_data` together with the helper
`group_starts_with_segment` form the matching engine.  Everything below is a
direct functional translation of that code.

Two representation choices, both behaviour-preserving for the final result:
the stack of currently open groups (`last_containers`, a Python list used
with `append` and `del xs[-1]`) is kept head-first here, and a `Group`
object is folded into its parent container when it is closed (or at
termination) instead of being aliased into the parent at creation time;
since the Python engine only ever mutates the most recently opened
container, the resulting trees are identical.  The random diagnostic `uid`
of `Group` (documented as non-semantic) and the logging calls are omitted.
-/

namespace Edifact

/-- Grammar node: `PlaceholderSegment(tag, status, repeats, label, description)`
with `mandatory = (status == 'M')`, or `SegmentGroup(elements, status, repeats,
label, description)`.  `repeats` is the parsed integer `int(repeats)`. -/
inductive Element where
  | segment (tag : String) (mandatory : Bool) (repeats : Nat) (label : Option String) (description : Option String)
  | group (children : List Element) (mandatory : Bool) (repeats : Nat) (label : Option String) (description : Option String)

/-- One tokenized input segment: the Python engine reads `segment[0]` as the
tag and passes `segment[1:]` on as raw data; the component payload is opaque
to the matcher, so it is modelled as a list of strings. -/
structure InputSegment where
  tag : String
  data : List String

/-- Result node: `DummySegment(data, tag, label, description)` (its label
defaults to the tag when the grammar gave none), or
`Group(mandatory, repeats, label, description)` with its `elements` mapping
from label to the ordered list of child result nodes. -/
inductive ResultNode where
  | segment (data : List String) (tag : String) (label : String) (description : Option String)
  | group (mandatory : Bool) (repeats : Nat) (label : Option String) (description : Option String) (elements : List (Option String × List ResultNode))

/-- Label-keyed mapping used for `Message.data` and `Group.elements`:
an insertion-ordered association list, exactly like a Python `dict`. -/
abbrev ResultDict := List (Option String × List ResultNode)

/-- One still-open `Group`: its metadata plus the mapping built so far.
Mirrors a `Group` object sitting on `last_containers`. -/
structure OpenGroup where
  mandatory : Bool
  repeats : Nat
  label : Option String
  description : Option String
  elements : ResultDict

/-- Closing an open group produces the `Group` result node. -/
def OpenGroup.toNode (c : OpenGroup) : ResultNode :=
  ResultNode.group c.mandatory c.repeats c.label c.description c.elements

/-- Full engine state threaded through `process_segments`:
`(segment_index, elements_indices, repeats, last_containers)` plus the
result mapping `self.data`.  `last_containers` is innermost-group-first. -/
structure MatchState where
  segment_index : Nat
  elements_indices : List Nat
  repeats : Nat
  last_containers : List OpenGroup
  data : ResultDict

/-- Errors the engine can raise: `MissingSegmentAtPositionError(tag)`, or an
uncaught Python `AttributeError`/`IndexError` from
`group_starts_with_segment` when a group's first child is itself a group
(`SegmentGroup` has no `tag` attribute) or a group has no children. -/
inductive MatchError where
  | missingSegmentAtPosition (tag : String)
  | attributeError

/-- Implements `add_to_data` / `Group.add`: `if label not in d: d[label] = []`
then `d[label].append(node)`.  New keys go to the end, preserving Python
dict insertion order. -/
def dictAdd : ResultDict → Option String → ResultNode → ResultDict
  | [], key, node => [(key, [node])]
  | (k, ns) :: rest, key, node =>
    if k = key then (k, ns ++ [node]) :: rest else (k, ns) :: dictAdd rest key node

/-- Lookup of `d[label]`, with the empty list for an absent label. -/
def dictGet : ResultDict → Option String → List ResultNode
  | [], _ => []
  | (k, ns) :: rest, key => if k = key then ns else dictGet rest key

/-- Shared parent dispatch of `add_segment` / `add_group`: append the new
node to the innermost open group if there is one, otherwise to the
top-level `self.data` mapping. -/
def add_element (key : Option String) (node : ResultNode) :
    List OpenGroup → ResultDict → List OpenGroup × ResultDict
  | [], data => ([], dictAdd data key node)
  | c :: rest, data => ({ c with elements := dictAdd c.elements key node } :: rest, data)

/-- Tag of a group's first child as read by `group_starts_with_segment`,
namely `group.get(0).tag`.  `none` models the uncaught exception raised
when the children list is empty (`IndexError`) or the first child is
itself a `SegmentGroup`, which has no `tag` attribute (`AttributeError`).
There is no recursive resolution in the source. -/
def firstChildTag : List Element → Option String
  | [] => none
  | Element.segment t _ _ _ _ :: _ => some t
  | Element.group _ _ _ _ _ :: _ => none

/-- Implements `group_starts_with_segment(group, tag)`:
`group.get(0).tag == tag`, with `none` for the crash cases above. -/
def group_starts_with_segment (children : List Element) (tag : String) : Option Bool :=
  (firstChildTag children).map (fun t0 => t0 == tag)

/-- Implements `Message.get_element(elements_indices)`: resolve the cursor
path in the grammar tree, `none` when an index is out of range (the
"current level exhausted" signal). -/
def get_element (elements : List Element) : List Nat → Option Element
  | [] => none
  | [i] => elements.get? i
  | i :: j :: rest =>
    match elements.get? i with
    | some (Element.group children _ _ _ _) => get_element children (j :: rest)
    | _ => none

/-- Implements `elements_indices[-1] += 1`. -/
def incrLast : List Nat → List Nat
  | [] => []
  | [i] => [i + 1]
  | i :: j :: rest => i :: incrLast (j :: rest)

/-- Implements `Message.process_end`: drop the deepest path index, reset the
repeat counter, and close the innermost open group.  The Python code merely
`del`s the stack entry because the group object was already aliased into
its parent; here the finished group is folded into its parent (or the
top-level mapping) at this point, which yields the same tree. -/
def process_end (s : MatchState) : MatchState :=
  match s.last_containers with
  | [] =>
    { s with elements_indices := s.elements_indices.dropLast, repeats := 0 }
  | c :: rest =>
    match rest with
    | [] =>
      { s with elements_indices := s.elements_indices.dropLast, repeats := 0,
               last_containers := [], data := dictAdd s.data c.label c.toNode }
    | c' :: rest' =>
      { s with elements_indices := s.elements_indices.dropLast, repeats := 0,
               last_containers := { c' with elements := dictAdd c'.elements c.label c.toNode } :: rest' }

/-- Implements `Message.process_group` for the grammar group currently under
the cursor (the source re-fetches it with `get_element`; the caller passes
the already-resolved fields here).  Note the source increments `repeats`
before the mandatory check and before entering. -/
def process_group (children : List Element) (gmandatory : Bool) (grepeats : Nat)
    (glabel gdescription : Option String) (tag : String) (s : MatchState) :
    Except MatchError MatchState :=
  if s.repeats + 1 ≥ grepeats then
    Except.ok (process_end s)
  else
    let repeats := s.repeats + 1
    match firstChildTag children with
    | none => Except.error MatchError.attributeError
    | some t0 =>
      if ¬ t0 = tag then
        if gmandatory ∧ repeats = 0 then
          Except.error (MatchError.missingSegmentAtPosition t0)
        else
          Except.ok { s with repeats := 0, elements_indices := incrLast s.elements_indices }
      else
        Except.ok ⟨s.segment_index, s.elements_indices ++ [0], repeats,
                   ⟨gmandatory, grepeats, glabel, gdescription, []⟩ :: s.last_containers, s.data⟩

/-- Implements `Message.process_segment` for the grammar segment currently
under the cursor, with `seg` the current input segment. -/
def process_segment (etag : String) (emandatory : Bool) (erepeats : Nat)
    (elabel edescription : Option String) (seg : InputSegment) (s : MatchState) :
    Except MatchError MatchState :=
  if ¬ etag = seg.tag then
    if emandatory ∧ s.repeats = 0 then
      Except.error (MatchError.missingSegmentAtPosition etag)
    else
      Except.ok { s with repeats := 0, elements_indices := incrLast s.elements_indices }
  else
    let label := elabel.getD etag
    let node := ResultNode.segment seg.data etag label edescription
    let cd := add_element (some label) node s.last_containers s.data
    if s.repeats + 1 ≥ erepeats then
      Except.ok ⟨s.segment_index + 1, incrLast s.elements_indices, 0, cd.1, cd.2⟩
    else
      Except.ok ⟨s.segment_index + 1, s.elements_indices, s.repeats + 1, cd.1, cd.2⟩

/-- Outcome of one body iteration of `process_segments`. -/
inductive StepResult where
  | finished (s : MatchState)
  | failed (e : MatchError)
  | next (s : MatchState)

/-- One body iteration of `Message.process_segments`: terminal-state test,
skip of the envelope tags `UNA`/`UNH`/`BGM`/`UNT`, then dispatch on the
resolved grammar node (`None` / `SegmentGroup` / `PlaceholderSegment`). -/
def step (grammar : List Element) (segments : List InputSegment) (s : MatchState) : StepResult :=
  if s.segment_index ≥ segments.length ∨ s.elements_indices.length < 1 then
    StepResult.finished s
  else
    let seg := (segments.get? s.segment_index).getD ⟨"", []⟩
    if seg.tag = "UNA" ∨ seg.tag = "UNH" ∨ seg.tag = "BGM" ∨ seg.tag = "UNT" then
      StepResult.next { s with segment_index := s.segment_index + 1 }
    else
      match get_element grammar s.elements_indices with
      | none => StepResult.next (process_end s)
      | some (Element.group children m r l d) =>
        match process_group children m r l d seg.tag s with
        | Except.error e => StepResult.failed e
        | Except.ok s' => StepResult.next s'
      | some (Element.segment t m r l d) =>
        match process_segment t m r l d seg s with
        | Except.error e => StepResult.failed e
        | Except.ok s' => StepResult.next s'

/-- The driving recursion of `Message.process_segments`, with explicit fuel:
`none` means the fuel ran out before the engine stopped, `some (ok s)` a
normal stop in state `s`, `some (error e)` a raised error. -/
def process_segments (grammar : List Element) (segments : List InputSegment) :
    Nat → MatchState → Option (Except MatchError MatchState)
  | 0, _ => none
  | fuel + 1, s =>
    match step grammar segments s with
    | StepResult.finished s' => some (Except.ok s')
    | StepResult.failed e => some (Except.error e)
    | StepResult.next s' => process_segments grammar segments fuel s'

/-- Initial engine state of `self.process_segments(segments, 0, [0], 0)`;
`data0` is the content of the `Message.data` mapping at that moment (the
class attribute starts as `{}` but is shared between parses). -/
def startState (data0 : ResultDict) : MatchState :=
  ⟨0, [0], 0, [], data0⟩

/-- Fold the groups that are still open when the engine stops into their
parents; the Python tree already contains them via aliasing. -/
def finalizeData (s : MatchState) : ResultDict :=
  match s.last_containers with
  | [] => s.data
  | c :: rest =>
    let outer := rest.foldl (fun inner o => { o with elements := dictAdd o.elements inner.label inner.toNode }) c
    dictAdd s.data outer.label outer.toNode

/-- Whole-parse wrapper: run the engine from the start state and return the
final `Message.data` mapping (or the raised error, or `none` on fuel
exhaustion). -/
def runMatch (grammar : List Element) (segments : List InputSegment)
    (fuel : Nat) (data0 : ResultDict) : Option (Except MatchError ResultDict) :=
  (process_segments grammar segments fuel (startState data0)).map (Except.map finalizeData)

/-- Modelled from the spec: the "group entry tag" obtained by resolving the
first child recursively ("if that child is itself a group, to its first
child's tag, transitively").  The source's `group_starts_with_segment` has
no such recursion; this definition exists only to compare the spec's words
with the code. -/
def specEntryTag : Element → Option String
  | Element.segment t _ _ _ _ => some t
  | Element.group children _ _ _ _ =>
    match children with
    | [] => none
    | c :: _ => specEntryTag c

/-- Input segments used by the concrete scenarios. -/
def segA : InputSegment := ⟨"A", []⟩

def segB : InputSegment := ⟨"B", []⟩

def segT : InputSegment := ⟨"T", []⟩

/-- Result nodes the concrete scenarios produce. -/
def nodeA : ResultNode := ResultNode.segment [] "A" "A" none

def nodeB : ResultNode := ResultNode.segment [] "B" "B" none

def nodeT : ResultNode := ResultNode.segment [] "T" "T" none

/-- Grammar of the spec's concrete scenario (claim C1):
`[SegmentSpec(tag="A", mandatory, repeats=1),
  GroupSpec(label="G1", optional, repeats=2, children=[SegmentSpec "B"])]`. -/
def gScenario : List Element :=
  [Element.segment "A" true 1 none none,
   Element.group [Element.segment "B" true 1 none none] false 2 (some "G1") none]

/-- Expected `Group` node for one `G1` occurrence of the scenario. -/
def g1Node : ResultNode :=
  ResultNode.group false 2 (some "G1") none [(some "B", [nodeB])]

/-- Grammar with one mandatory group (`repeats = 2`) whose entry tag is
`B`; used for claim C3. -/
def gMandGroup : List Element :=
  [Element.group [Element.segment "B" true 1 none none] true 2 (some "G") none]

/-- Mandatory group whose first child is itself a group; used for claim C4. -/
def nestedGroup : Element :=
  Element.group [Element.group [Element.segment "A" true 1 none none] true 1 (some "Inner") none]
    true 2 (some "Outer") none

/-- Grammar wrapping `nestedGroup`. -/
def gNested : List Element := [nestedGroup]

/-- Grammar with one optional group with `repeats = 2` around a single `B`
segment; used for claims C5, C9 and C10. -/
def gOpt2 : List Element :=
  [Element.group [Element.segment "B" true 1 none none] false 2 (some "G") none]

/-- The `Group` node one entered occurrence of `gOpt2`'s group produces. -/
def gNodeG : ResultNode :=
  ResultNode.group false 2 (some "G") none [(some "B", [nodeB])]

/-- Result mapping after `k` occurrences of `gOpt2`'s group: label `G` maps
to `k` copies of `gNodeG` (absent for `k = 0`). -/
def dataG : Nat → ResultDict
  | 0 => []
  | Nat.succ m => [(some "G", List.replicate (m + 1) gNodeG)]

/-- Append `m` further `G` group occurrences to a result mapping. -/
def addGs : Nat → ResultDict → ResultDict
  | 0, d => d
  | m + 1, d => addGs m (dictAdd d (some "G") gNodeG)

/-- Fuel consumed by `m` group occurrence cycles (three engine iterations
each) plus the final terminal iteration; equals `3 * m + 1`. -/
def groupCycleFuel : Nat → Nat
  | 0 => 1
  | m + 1 => groupCycleFuel m + 1 + 1 + 1

/-- Fuel consumed by `m + 1` segment matches plus the closing skip, pop
and terminal iterations; equals `m + 4`. -/
def segCycleFuel : Nat → Nat
  | 0 => 1 + 1 + 1 + 1
  | m + 1 => segCycleFuel m + 1

/-- Grammar `[SegmentSpec(tag="T", mandatory, repeats=n),
SegmentSpec(tag="U", optional, repeats=1)]`; used for claim C6. -/
def gSegRep (n : Nat) : List Element :=
  [Element.segment "T" true n none none, Element.segment "U" false 1 none none]

/-- Result mapping after `j` matches of the `T` slot. -/
def dT : Nat → ResultDict
  | 0 => []
  | Nat.succ m => [(some "T", List.replicate (m + 1) nodeT)]

/-- Grammar of a single mandatory `A` segment; used for claim C8. -/
def gSingleA : List Element := [Element.segment "A" true 1 none none]

/-- Deep well-formedness used by claim C10: every `Group` node in a result
tree carries `repeats ≥ 2` (the engine can only ever create such groups). -/
inductive NodeMin2 : ResultNode → Prop where
  | segment (data : List String) (tag label : String) (d : Option String) :
      NodeMin2 (ResultNode.segment data tag label d)
  | group (m : Bool) (r : Nat) (l d : Option String) (elems : ResultDict) :
      2 ≤ r → (∀ kv ∈ elems, ∀ n ∈ kv.2, NodeMin2 n) → NodeMin2 (ResultNode.group m r l d elems)

/-- Every node in every list of the mapping satisfies `NodeMin2`. -/
def DictMin2 (d : ResultDict) : Prop := ∀ kv ∈ d, ∀ n ∈ kv.2, NodeMin2 n

/-- Invariant for a still-open group. -/
def ContMin2 (c : OpenGroup) : Prop := 2 ≤ c.repeats ∧ DictMin2 c.elements

/-- Invariant for a whole engine state. -/
def StateMin2 (s : MatchState) : Prop :=
  DictMin2 s.data ∧ ∀ c ∈ s.last_containers, ContMin2 c

/-- Well-formedness of a cursor path: every index stays within one step of
its level and only the last index may point past the children; the engine
preserves this. -/
def pathOK (elements : List Element) : List Nat → Bool
  | [] => true
  | i :: rest =>
    decide (i ≤ elements.length) &&
      (match elements.get? i with
       | some (Element.group children _ _ _ _) => pathOK children rest
       | some (Element.segment _ _ _ _ _) => rest.isEmpty
       | none => rest.isEmpty)

/-- Termination potential of a cursor path: total work remaining at each
level before the path can only be popped. -/
def pathPot (elements : List Element) : List Nat → Nat
  | [] => 0
  | i :: rest =>
    elements.length + 1 - i +
      (match elements.get? i with
       | some (Element.group children _ _ _ _) => pathPot children rest
       | _ => 0)

section Lemmas

/-- A resolved cursor path is non-empty. -/
theorem one_le_length_of_get_element {els : List Element} {p : List Nat} {e : Element}
    (h : get_element els p = some e) : 1 ≤ p.length := by
  cases p with
  | nil => simp [get_element] at h
  | cons i rest => simp

/-- A successful list lookup is in range. -/
theorem lt_length_of_get? {α : Type} {l : List α} {n : Nat} {a : α}
    (h : l.get? n = some a) : n < l.length := by
  by_contra hn
  rw [List.get?_eq_none.mpr (Nat.le_of_not_lt hn)] at h
  exact Option.noConfusion h

end Lemmas

/-- Claim C1: on the grammar `[SegmentSpec A mandatory 1, GroupSpec G1
optional 2 [SegmentSpec B mandatory 1]]` and input tags `A, B, B`, matching
succeeds with label `A` mapped to exactly one result segment and `G1`
mapped to exactly two result groups, each mapping `B` to one result
segment. -/
theorem c1_concrete_scenario :
    runMatch gScenario [segA, segB, segB] 10 [] =
      some (Except.ok [(some "A", [nodeA]), (some "G1", [g1Node, g1Node])]) := rfl

/-- Claim C3 (code bug): a mandatory group whose entry tag does not match
is silently skipped instead of raising.  First conjunct: the concrete
failing input (mandatory group on `B`, input tag `C`) terminates normally
with an empty result and the input unconsumed.  Second conjunct: the
`MissingSegmentAtPositionError` branch of `process_group` is dead code —
the method increments `repeats` before testing `repeats == 0`, so it can
only return a successor state or the attribute-error crash, never the
missing-mandatory error the spec demands. -/
theorem c3_mandatory_group_never_raises :
    runMatch gMandGroup [⟨"C", []⟩] 5 [] = some (Except.ok []) ∧
    ∀ children m r l d tag s,
      (∃ s', process_group children m r l d tag s = Except.ok s') ∨
        process_group children m r l d tag s = Except.error MatchError.attributeError := by
  refine ⟨rfl, ?_⟩
  intro children m r l d tag s
  by_cases hb : s.repeats + 1 ≥ r
  · exact Or.inl ⟨process_end s, by simp [process_group, hb]⟩
  · cases hf : firstChildTag children with
    | none => exact Or.inr (by simp [process_group, hb, hf])
    | some t0 =>
      by_cases ht : t0 = tag
      · exact Or.inl ⟨⟨s.segment_index, s.elements_indices ++ [0], s.repeats + 1,
          ⟨m, r, l, d, []⟩ :: s.last_containers, s.data⟩,
          by simp [process_group, hb, hf, ht]⟩
      · exact Or.inl ⟨⟨s.segment_index, incrLast s.elements_indices, 0,
          s.last_containers, s.data⟩,
          by simp [process_group, hb, hf, ht, Nat.succ_ne_zero]⟩

/-- Claim C4, counterexample: for the group whose first child is itself a
group, the spec's recursively resolved entry tag is `A` and the next input
tag is `A`, so the claim demands entry; the code instead crashes (reading
`group.get(0).tag` on a `SegmentGroup`, which has no `tag` attribute). -/
theorem c4_counterexample :
    specEntryTag nestedGroup = some "A" ∧
    runMatch gNested [segA] 5 [] = some (Except.error MatchError.attributeError) :=
  ⟨rfl, rfl⟩

/-- Claim C4, amended: when the repeat budget is open, a group is entered
if and only if its first child is a `PlaceholderSegment` whose tag equals
the next input tag; entry does not consume the input segment and descends
to the first child (path grows by a trailing `0`).  If the first child is
itself a group, or the group has no children, the engine crashes with the
uncaught attribute error instead of resolving the tag recursively. -/
theorem c4_entry_is_first_child_tag (children : List Element) (m : Bool) (r : Nat)
    (l d : Option String) (tag : String) (s : MatchState)
    (hbudget : s.repeats + 1 < r) :
    (∀ t sm sr sl sd rest, children = Element.segment t sm sr sl sd :: rest →
      ((tag = t → process_group children m r l d tag s =
          Except.ok ⟨s.segment_index, s.elements_indices ++ [0], s.repeats + 1,
                     ⟨m, r, l, d, []⟩ :: s.last_containers, s.data⟩) ∧
       (¬ tag = t → process_group children m r l d tag s =
          Except.ok ⟨s.segment_index, incrLast s.elements_indices, 0,
                     s.last_containers, s.data⟩))) ∧
    (∀ gc gm gr gl gd rest, children = Element.group gc gm gr gl gd :: rest →
      process_group children m r l d tag s = Except.error MatchError.attributeError) ∧
    (children = [] → process_group children m r l d tag s = Except.error MatchError.attributeError) := by
  have hnot : ¬ s.repeats + 1 ≥ r := Nat.not_le.mpr hbudget
  refine ⟨?_, ?_, ?_⟩
  · intro t sm sr sl sd rest hch
    subst hch
    constructor
    · intro htag
      subst htag
      unfold process_group
      rw [if_neg hnot]
      simp [firstChildTag]
    · intro htag
      unfold process_group
      rw [if_neg hnot]
      have ht' : ¬ t = tag := fun h => htag h.symm
      simp [firstChildTag, ht', Nat.succ_ne_zero]
  · intro gc gm gr gl gd rest hch
    subst hch
    unfold process_group
    rw [if_neg hnot]
    simp [firstChildTag]
  · intro hch
    subst hch
    unfold process_group
    rw [if_neg hnot]
    simp [firstChildTag]

/-- Witness for the amended claim C4 at a concrete input: a group over a
single `B` segment with budget `2` is entered on input tag `B`. -/
theorem c4_entry_is_first_child_tag_witness :
    process_group [Element.segment "B" true 1 none none] false 2 (some "G") none "B"
        ⟨0, [0], 0, [], []⟩ =
      Except.ok ⟨0, [0, 0], 1, [⟨false, 2, some "G", none, []⟩], []⟩ :=
  ((c4_entry_is_first_child_tag [Element.segment "B" true 1 none none] false 2
      (some "G") none "B" ⟨0, [0], 0, [], []⟩ (by decide)).1
    "B" true 1 none none [] rfl).1 rfl

/-- Claim C7, counterexample: at a concrete group entry (group `G` with
`repeats = 2` over segment `B`, incoming repeat count `0`), the engine
appends a result group, pushes it, and descends with the repeat count `1`,
not `0` as the claim states. -/
theorem c7_counterexample :
    process_group [Element.segment "B" true 1 none none] false 2 (some "G") none "B"
        ⟨0, [0], 0, [], []⟩ =
      Except.ok ⟨0, [0, 0], 1, [⟨false, 2, some "G", none, []⟩], []⟩ ∧
    (⟨0, [0, 0], 1, [⟨false, 2, some "G", none, []⟩], []⟩ : MatchState).repeats ≠ 0 :=
  ⟨rfl, by decide⟩

/-- Claim C7, amended: entering a group carries the incremented repeat
count `repeats + 1` (never `0`) into the new, deeper level — the source
increments `repeats` before the entry branch and passes it through. -/
theorem c7_entry_carries_incremented_repeats (children : List Element) (m : Bool)
    (r : Nat) (l d : Option String) (tag t0 : String) (s : MatchState)
    (hfct : firstChildTag children = some t0) (htag : t0 = tag)
    (hbudget : s.repeats + 1 < r) :
    process_group children m r l d tag s =
      Except.ok ⟨s.segment_index, s.elements_indices ++ [0], s.repeats + 1,
                 ⟨m, r, l, d, []⟩ :: s.last_containers, s.data⟩ ∧
    s.repeats + 1 ≠ 0 := by
  subst htag
  refine ⟨?_, Nat.succ_ne_zero _⟩
  unfold process_group
  rw [if_neg (Nat.not_le.mpr hbudget)]
  simp [hfct]

/-- Witness for the amended claim C7 at a concrete entry. -/
theorem c7_entry_carries_incremented_repeats_witness :
    process_group [Element.segment "B" true 1 none none] false 3 (some "G") none "B"
        ⟨4, [1], 1, [], []⟩ =
      Except.ok ⟨4, [1, 0], 2, [⟨false, 3, some "G", none, []⟩], []⟩ ∧
    (1 : Nat) + 1 ≠ 0 :=
  c7_entry_carries_incremented_repeats [Element.segment "B" true 1 none none] false 3
    (some "G") none "B" "B" ⟨4, [1], 1, [], []⟩ rfl rfl (by decide)

/-- Claim C8 (code bug): `Message.data` is a mutable class attribute shared
by every parse, so the second parse of the same one-segment message starts
from the first parse's mapping and ends with label `A` holding two
segments instead of one — the two runs' results are not structurally
equal. -/
theorem c8_second_parse_accumulates :
    runMatch gSingleA [segA] 5 [] = some (Except.ok [(some "A", [nodeA])]) ∧
    runMatch gSingleA [segA] 5 [(some "A", [nodeA])] =
      some (Except.ok [(some "A", [nodeA, nodeA])]) ∧
    (dictGet [(some "A", [nodeA, nodeA])] (some "A")).length = 2 ∧
    (dictGet [(some "A", [nodeA])] (some "A")).length = 1 :=
  ⟨rfl, rfl, rfl, rfl⟩

/-- Claim C2: a mandatory segment spec at the cursor with repeat count `0`
whose tag differs from the next (non-envelope) input tag makes the engine
raise `MissingSegmentAtPositionError` with that spec's tag.
`process_segment` raises before touching any container, so the failing
step produces no successor state and appends no result node, and the whole
run fails with the same error. -/
theorem c2_missing_mandatory_segment (grammar : List Element)
    (segments : List InputSegment) (s : MatchState) (t : String) (r : Nat)
    (lab dsc : Option String) (seg : InputSegment)
    (hseg : segments.get? s.segment_index = some seg)
    (hskip : ¬ (seg.tag = "UNA" ∨ seg.tag = "UNH" ∨ seg.tag = "BGM" ∨ seg.tag = "UNT"))
    (hel : get_element grammar s.elements_indices = some (Element.segment t true r lab dsc))
    (hrep : s.repeats = 0) (htag : ¬ t = seg.tag) :
    process_segment t true r lab dsc seg s =
      Except.error (MatchError.missingSegmentAtPosition t) ∧
    ∀ k, process_segments grammar segments (k + 1) s =
      some (Except.error (MatchError.missingSegmentAtPosition t)) := by
  have hps : process_segment t true r lab dsc seg s =
      Except.error (MatchError.missingSegmentAtPosition t) := by
    simp [process_segment, htag, hrep]
  refine ⟨hps, ?_⟩
  intro k
  have hterm : ¬ (s.segment_index ≥ segments.length ∨ s.elements_indices.length < 1) := by
    push_neg
    exact ⟨lt_length_of_get? hseg, one_le_length_of_get_element hel⟩
  have hstep : step grammar segments s =
      StepResult.failed (MatchError.missingSegmentAtPosition t) := by
    unfold step
    rw [if_neg hterm]
    simp only [hseg, Option.getD_some]
    rw [if_neg hskip, hel]
    simp [hps]
  simp [process_segments, hstep]

/-- Witness for claim C2: grammar `[SegmentSpec X mandatory 1]` against
input tag `Y` fails with the missing-mandatory error for `X`. -/
theorem c2_missing_mandatory_segment_witness :
    process_segment "X" true 1 none none ⟨"Y", []⟩ (startState []) =
      Except.error (MatchError.missingSegmentAtPosition "X") ∧
    process_segments [Element.segment "X" true 1 none none] [⟨"Y", []⟩] 5 (startState []) =
      some (Except.error (MatchError.missingSegmentAtPosition "X")) :=
  ⟨(c2_missing_mandatory_segment [Element.segment "X" true 1 none none] [⟨"Y", []⟩]
      (startState []) "X" 1 none none ⟨"Y", []⟩ rfl (by decide) rfl rfl (by decide)).1,
   (c2_missing_mandatory_segment [Element.segment "X" true 1 none none] [⟨"Y", []⟩]
      (startState []) "X" 1 none none ⟨"Y", []⟩ rfl (by decide) rfl rfl (by decide)).2 4⟩

section Characterization

/-- Branch equation: exhausted group budget takes the `process_end` path. -/
theorem process_group_eq_end {children : List Element} {m : Bool} {r : Nat}
    {l d : Option String} {tag : String} {s : MatchState}
    (hb : s.repeats + 1 ≥ r) :
    process_group children m r l d tag s = Except.ok (process_end s) := by
  simp [process_group, hb]

/-- Branch equation: open budget but a group-headed or empty children list
crashes. -/
theorem process_group_eq_crash {children : List Element} {m : Bool} {r : Nat}
    {l d : Option String} {tag : String} {s : MatchState}
    (hb : ¬ s.repeats + 1 ≥ r) (hf : firstChildTag children = none) :
    process_group children m r l d tag s = Except.error MatchError.attributeError := by
  simp [process_group, hb, hf]

/-- Branch equation: open budget, first-child tag differs — the group is
skipped (the mandatory test compares the already-incremented counter with
`0`, so it never fires). -/
theorem process_group_eq_skip {children : List Element} {m : Bool} {r : Nat}
    {l d : Option String} {tag t0 : String} {s : MatchState}
    (hb : ¬ s.repeats + 1 ≥ r) (hf : firstChildTag children = some t0)
    (ht : ¬ t0 = tag) :
    process_group children m r l d tag s =
      Except.ok ⟨s.segment_index, incrLast s.elements_indices, 0,
                 s.last_containers, s.data⟩ := by
  simp [process_group, hb, hf, ht, Nat.succ_ne_zero]

/-- Branch equation: open budget, first-child tag matches — the group is
entered. -/
theorem process_group_eq_enter {children : List Element} {m : Bool} {r : Nat}
    {l d : Option String} {tag t0 : String} {s : MatchState}
    (hb : ¬ s.repeats + 1 ≥ r) (hf : firstChildTag children = some t0)
    (ht : t0 = tag) :
    process_group children m r l d tag s =
      Except.ok ⟨s.segment_index, s.elements_indices ++ [0], s.repeats + 1,
                 ⟨m, r, l, d, []⟩ :: s.last_containers, s.data⟩ := by
  simp [process_group, hb, hf, ht]

/-- Branch equation: mismatched mandatory segment on its first attempt
raises. -/
theorem process_segment_eq_error {etag : String} {em : Bool} {er : Nat}
    {elb edsc : Option String} {seg : InputSegment} {s : MatchState}
    (ht : ¬ etag = seg.tag) (hm : em = true) (hr : s.repeats = 0) :
    process_segment etag em er elb edsc seg s =
      Except.error (MatchError.missingSegmentAtPosition etag) := by
  simp [process_segment, ht, hm, hr]

/-- Branch equation: mismatched segment otherwise advances to the next
sibling. -/
theorem process_segment_eq_skip {etag : String} {em : Bool} {er : Nat}
    {elb edsc : Option String} {seg : InputSegment} {s : MatchState}
    (ht : ¬ etag = seg.tag) (hm : ¬ (em = true ∧ s.repeats = 0)) :
    process_segment etag em er elb edsc seg s =
      Except.ok ⟨s.segment_index, incrLast s.elements_indices, 0,
                 s.last_containers, s.data⟩ := by
  simp only [process_segment, if_pos ht, if_neg hm]

/-- Branch equation: matching segment with the repeat budget exhausted —
append the node, consume the segment, advance the slot. -/
theorem process_segment_eq_match_adv {etag : String} {em : Bool} {er : Nat}
    {elb edsc : Option String} {seg : InputSegment} {s : MatchState}
    (ht : etag = seg.tag) (hr : s.repeats + 1 ≥ er) :
    process_segment etag em er elb edsc seg s =
      Except.ok ⟨s.segment_index + 1, incrLast s.elements_indices, 0,
                 (add_element (some (elb.getD etag))
                   (ResultNode.segment seg.data etag (elb.getD etag) edsc)
                   s.last_containers s.data).1,
                 (add_element (some (elb.getD etag))
                   (ResultNode.segment seg.data etag (elb.getD etag) edsc)
                   s.last_containers s.data).2⟩ := by
  simp [process_segment, ht, hr]

/-- Branch equation: matching segment with budget remaining — append the
node, consume the segment, stay on the slot with the counter bumped. -/
theorem process_segment_eq_match_stay {etag : String} {em : Bool} {er : Nat}
    {elb edsc : Option String} {seg : InputSegment} {s : MatchState}
    (ht : etag = seg.tag) (hr : ¬ s.repeats + 1 ≥ er) :
    process_segment etag em er elb edsc seg s =
      Except.ok ⟨s.segment_index + 1, s.elements_indices, s.repeats + 1,
                 (add_element (some (elb.getD etag))
                   (ResultNode.segment seg.data etag (elb.getD etag) edsc)
                   s.last_containers s.data).1,
                 (add_element (some (elb.getD etag))
                   (ResultNode.segment seg.data etag (elb.getD etag) edsc)
                   s.last_containers s.data).2⟩ := by
  simp [process_segment, ht, hr]

/-- Step equation: terminal condition reached. -/
theorem step_eq_finished {grammar : List Element} {segments : List InputSegment}
    {s : MatchState}
    (h : s.segment_index ≥ segments.length ∨ s.elements_indices.length < 1) :
    step grammar segments s = StepResult.finished s := by
  unfold step
  rw [if_pos h]

/-- Step equation: envelope tag skipped without consulting the grammar. -/
theorem step_eq_skiptag {grammar : List Element} {segments : List InputSegment}
    {s : MatchState} {seg : InputSegment}
    (hn : ¬ (s.segment_index ≥ segments.length ∨ s.elements_indices.length < 1))
    (hseg : segments.get? s.segment_index = some seg)
    (hsk : seg.tag = "UNA" ∨ seg.tag = "UNH" ∨ seg.tag = "BGM" ∨ seg.tag = "UNT") :
    step grammar segments s =
      StepResult.next ⟨s.segment_index + 1, s.elements_indices, s.repeats,
                       s.last_containers, s.data⟩ := by
  unfold step
  rw [if_neg hn]
  simp only [hseg, Option.getD_some]
  rw [if_pos hsk]

/-- Step equation: exhausted level pops. -/
theorem step_eq_none {grammar : List Element} {segments : List InputSegment}
    {s : MatchState} {seg : InputSegment}
    (hn : ¬ (s.segment_index ≥ segments.length ∨ s.elements_indices.length < 1))
    (hseg : segments.get? s.segment_index = some seg)
    (hsk : ¬ (seg.tag = "UNA" ∨ seg.tag = "UNH" ∨ seg.tag = "BGM" ∨ seg.tag = "UNT"))
    (hel : get_element grammar s.elements_indices = none) :
    step grammar segments s = StepResult.next (process_end s) := by
  unfold step
  rw [if_neg hn]
  simp only [hseg, Option.getD_some]
  rw [if_neg hsk, hel]

/-- Step equation: group node dispatch, successful sub-step. -/
theorem step_eq_group_ok {grammar : List Element} {segments : List InputSegment}
    {s s' : MatchState} {seg : InputSegment} {children : List Element} {m : Bool}
    {r : Nat} {l d : Option String}
    (hn : ¬ (s.segment_index ≥ segments.length ∨ s.elements_indices.length < 1))
    (hseg : segments.get? s.segment_index = some seg)
    (hsk : ¬ (seg.tag = "UNA" ∨ seg.tag = "UNH" ∨ seg.tag = "BGM" ∨ seg.tag = "UNT"))
    (hel : get_element grammar s.elements_indices = some (Element.group children m r l d))
    (hpg : process_group children m r l d seg.tag s = Except.ok s') :
    step grammar segments s = StepResult.next s' := by
  unfold step
  rw [if_neg hn]
  simp only [hseg, Option.getD_some]
  rw [if_neg hsk, hel]
  dsimp only
  rw [hpg]

/-- Step equation: group node dispatch, failing sub-step. -/
theorem step_eq_group_err {grammar : List Element} {segments : List InputSegment}
    {s : MatchState} {seg : InputSegment} {children : List Element} {m : Bool}
    {r : Nat} {l d : Option String} {e : MatchError}
    (hn : ¬ (s.segment_index ≥ segments.length ∨ s.elements_indices.length < 1))
    (hseg : segments.get? s.segment_index = some seg)
    (hsk : ¬ (seg.tag = "UNA" ∨ seg.tag = "UNH" ∨ seg.tag = "BGM" ∨ seg.tag = "UNT"))
    (hel : get_element grammar s.elements_indices = some (Element.group children m r l d))
    (hpg : process_group children m r l d seg.tag s = Except.error e) :
    step grammar segments s = StepResult.failed e := by
  unfold step
  rw [if_neg hn]
  simp only [hseg, Option.getD_some]
  rw [if_neg hsk, hel]
  dsimp only
  rw [hpg]

/-- Step equation: segment node dispatch, successful sub-step. -/
theorem step_eq_segment_ok {grammar : List Element} {segments : List InputSegment}
    {s s' : MatchState} {seg : InputSegment} {t : String} {m : Bool} {r : Nat}
    {l d : Option String}
    (hn : ¬ (s.segment_index ≥ segments.length ∨ s.elements_indices.length < 1))
    (hseg : segments.get? s.segment_index = some seg)
    (hsk : ¬ (seg.tag = "UNA" ∨ seg.tag = "UNH" ∨ seg.tag = "BGM" ∨ seg.tag = "UNT"))
    (hel : get_element grammar s.elements_indices = some (Element.segment t m r l d))
    (hps : process_segment t m r l d seg s = Except.ok s') :
    step grammar segments s = StepResult.next s' := by
  unfold step
  rw [if_neg hn]
  simp only [hseg, Option.getD_some]
  rw [if_neg hsk, hel]
  dsimp only
  rw [hps]

/-- Step equation: segment node dispatch, failing sub-step. -/
theorem step_eq_segment_err {grammar : List Element} {segments : List InputSegment}
    {s : MatchState} {seg : InputSegment} {t : String} {m : Bool} {r : Nat}
    {l d : Option String} {e : MatchError}
    (hn : ¬ (s.segment_index ≥ segments.length ∨ s.elements_indices.length < 1))
    (hseg : segments.get? s.segment_index = some seg)
    (hsk : ¬ (seg.tag = "UNA" ∨ seg.tag = "UNH" ∨ seg.tag = "BGM" ∨ seg.tag = "UNT"))
    (hel : get_element grammar s.elements_indices = some (Element.segment t m r l d))
    (hps : process_segment t m r l d seg s = Except.error e) :
    step grammar segments s = StepResult.failed e := by
  unfold step
  rw [if_neg hn]
  simp only [hseg, Option.getD_some]
  rw [if_neg hsk, hel]
  dsimp only
  rw [hps]

/-- A non-terminal state always has a current input segment. -/
theorem exists_seg_of_not_finished {segments : List InputSegment} {s : MatchState}
    (hn : ¬ (s.segment_index ≥ segments.length ∨ s.elements_indices.length < 1)) :
    ∃ seg, segments.get? s.segment_index = some seg := by
  push_neg at hn
  exact ⟨_, List.get?_eq_get hn.1⟩

end Characterization

section GroupRepeatInvariant

/-- Adding a well-formed node preserves the mapping invariant. -/
theorem dictAdd_min2 {d : ResultDict} {key : Option String} {node : ResultNode}
    (hd : DictMin2 d) (hn : NodeMin2 node) : DictMin2 (dictAdd d key node) := by
  induction d with
  | nil =>
    intro kv hkv n hnm
    simp [dictAdd] at hkv
    subst hkv
    simp at hnm
    subst hnm
    exact hn
  | cons hd' rest ih =>
    obtain ⟨k, ns⟩ := hd'
    have hhead : ∀ n ∈ ns, NodeMin2 n := hd (k, ns) (List.mem_cons_self _ _)
    have hrest : DictMin2 rest := fun kv hkv => hd kv (List.mem_cons_of_mem _ hkv)
    intro kv hkv n hnm
    simp only [dictAdd] at hkv
    split at hkv
    · rcases List.mem_cons.mp hkv with h1 | h2
      · subst h1
        rcases List.mem_append.mp hnm with h3 | h4
        · exact hhead n h3
        · rw [List.mem_singleton.mp h4]
          exact hn
      · exact hrest kv h2 n hnm
    · rcases List.mem_cons.mp hkv with h1 | h2
      · subst h1
        exact hhead n hnm
      · exact ih hrest kv h2 n hnm

/-- Closing a well-formed open group yields a well-formed node. -/
theorem toNode_min2 {c : OpenGroup} (h : ContMin2 c) : NodeMin2 c.toNode :=
  NodeMin2.group c.mandatory c.repeats c.label c.description c.elements h.1 h.2

/-- The parent dispatch of `add_segment`/`add_group` preserves both
invariants. -/
theorem add_element_min2 {key : Option String} {node : ResultNode}
    {cs : List OpenGroup} {data : ResultDict} (hn : NodeMin2 node)
    (hcs : ∀ c ∈ cs, ContMin2 c) (hd : DictMin2 data) :
    (∀ c ∈ (add_element key node cs data).1, ContMin2 c) ∧
      DictMin2 (add_element key node cs data).2 := by
  cases cs with
  | nil =>
    exact ⟨fun c hc => absurd hc (List.not_mem_nil _), dictAdd_min2 hd hn⟩
  | cons c rest =>
    refine ⟨?_, hd⟩
    intro c' hc'
    rcases List.mem_cons.mp hc' with h1 | h2
    · subst h1
      have hc := hcs c (List.mem_cons_self _ _)
      exact ⟨hc.1, dictAdd_min2 hc.2 hn⟩
    · exact hcs c' (List.mem_cons_of_mem _ h2)

/-- The method `process_end` preserves the state invariant. -/
theorem process_end_min2 {s : MatchState} (h : StateMin2 s) : StateMin2 (process_end s) := by
  obtain ⟨hd, hcs⟩ := h
  unfold process_end
  cases hc : s.last_containers with
  | nil => exact ⟨hd, fun c hcm => by simp at hcm⟩
  | cons c rest =>
    have hch : ContMin2 c := hcs c (by rw [hc]; exact List.mem_cons_self _ _)
    cases rest with
    | nil =>
      refine ⟨dictAdd_min2 hd (toNode_min2 hch), fun c' hcm => by simp at hcm⟩
    | cons c' rest' =>
      have hc'h : ContMin2 c' := hcs c' (by rw [hc]; simp)
      refine ⟨hd, ?_⟩
      intro c'' hcm
      rcases List.mem_cons.mp hcm with h1 | h2
      · subst h1
        exact ⟨hc'h.1, dictAdd_min2 hc'h.2 (toNode_min2 hch)⟩
      · exact hcs c'' (by rw [hc]; simp [List.mem_cons_of_mem, h2])

/-- The method `process_group` preserves the state invariant: the only new open group
it can push has `repeats ≥ 2`, because entry requires an unexhausted
budget `repeats + 1 < max_repeats`. -/
theorem process_group_min2 {children : List Element} {m : Bool} {r : Nat}
    {l d : Option String} {tag : String} {s s' : MatchState}
    (hpg : process_group children m r l d tag s = Except.ok s')
    (h : StateMin2 s) : StateMin2 s' := by
  by_cases hb : s.repeats + 1 ≥ r
  · rw [process_group_eq_end hb] at hpg
    cases hpg
    exact process_end_min2 h
  · cases hf : firstChildTag children with
    | none => rw [process_group_eq_crash hb hf] at hpg; cases hpg
    | some t0 =>
      by_cases ht : t0 = tag
      · rw [process_group_eq_enter hb hf ht] at hpg
        cases hpg
        refine ⟨h.1, ?_⟩
        intro c hcm
        rcases List.mem_cons.mp hcm with h1 | h2
        · subst h1
          refine ⟨(by omega : (2 : Nat) ≤ r), fun kv hkv => by simp at hkv⟩
        · exact h.2 c h2
      · rw [process_group_eq_skip hb hf ht] at hpg
        cases hpg
        exact ⟨h.1, h.2⟩

/-- The method `process_segment` preserves the state invariant. -/
theorem process_segment_min2 {etag : String} {em : Bool} {er : Nat}
    {elb edsc : Option String} {seg : InputSegment} {s s' : MatchState}
    (hps : process_segment etag em er elb edsc seg s = Except.ok s')
    (h : StateMin2 s) : StateMin2 s' := by
  by_cases ht : etag = seg.tag
  · have hadd : (∀ c ∈ (add_element (some (elb.getD etag))
        (ResultNode.segment seg.data etag (elb.getD etag) edsc)
        s.last_containers s.data).1, ContMin2 c) ∧
      DictMin2 (add_element (some (elb.getD etag))
        (ResultNode.segment seg.data etag (elb.getD etag) edsc)
        s.last_containers s.data).2 :=
      add_element_min2 (NodeMin2.segment _ _ _ _) h.2 h.1
    by_cases hr : s.repeats + 1 ≥ er
    · rw [process_segment_eq_match_adv ht hr] at hps
      cases hps
      exact ⟨hadd.2, hadd.1⟩
    · rw [process_segment_eq_match_stay ht hr] at hps
      cases hps
      exact ⟨hadd.2, hadd.1⟩
  · by_cases hm : em = true ∧ s.repeats = 0
    · rw [process_segment_eq_error ht hm.1 hm.2] at hps
      cases hps
    · rw [process_segment_eq_skip ht hm] at hps
      cases hps
      exact ⟨h.1, h.2⟩

/-- One engine step preserves the state invariant. -/
theorem step_min2 {grammar : List Element} {segments : List InputSegment}
    {s s' : MatchState} (hst : step grammar segments s = StepResult.next s')
    (h : StateMin2 s) : StateMin2 s' := by
  by_cases hn : s.segment_index ≥ segments.length ∨ s.elements_indices.length < 1
  · rw [step_eq_finished hn] at hst
    cases hst
  · obtain ⟨seg, hseg⟩ := exists_seg_of_not_finished hn
    by_cases hsk : seg.tag = "UNA" ∨ seg.tag = "UNH" ∨ seg.tag = "BGM" ∨ seg.tag = "UNT"
    · rw [step_eq_skiptag hn hseg hsk] at hst
      cases hst
      exact ⟨h.1, h.2⟩
    · cases hel : get_element grammar s.elements_indices with
      | none =>
        rw [step_eq_none hn hseg hsk hel] at hst
        cases hst
        exact process_end_min2 h
      | some el =>
        cases el with
        | group children m r l d =>
          cases hpg : process_group children m r l d seg.tag s with
          | error e => rw [step_eq_group_err hn hseg hsk hel hpg] at hst; cases hst
          | ok s0 =>
            rw [step_eq_group_ok hn hseg hsk hel hpg] at hst
            cases hst
            exact process_group_min2 hpg h
        | segment t m r l d =>
          cases hps : process_segment t m r l d seg s with
          | error e => rw [step_eq_segment_err hn hseg hsk hel hps] at hst; cases hst
          | ok s0 =>
            rw [step_eq_segment_ok hn hseg hsk hel hps] at hst
            cases hst
            exact process_segment_min2 hps h

/-- The engine only stops in the state it was called with. -/
theorem step_finished_inversion {grammar : List Element} {segments : List InputSegment}
    {s s' : MatchState} (hst : step grammar segments s = StepResult.finished s') :
    s' = s ∧ (s.segment_index ≥ segments.length ∨ s.elements_indices.length < 1) := by
  by_cases hn : s.segment_index ≥ segments.length ∨ s.elements_indices.length < 1
  · rw [step_eq_finished hn] at hst
    cases hst
    exact ⟨rfl, hn⟩
  · obtain ⟨seg, hseg⟩ := exists_seg_of_not_finished hn
    by_cases hsk : seg.tag = "UNA" ∨ seg.tag = "UNH" ∨ seg.tag = "BGM" ∨ seg.tag = "UNT"
    · rw [step_eq_skiptag hn hseg hsk] at hst
      cases hst
    · cases hel : get_element grammar s.elements_indices with
      | none =>
        rw [step_eq_none hn hseg hsk hel] at hst
        cases hst
      | some el =>
        cases el with
        | group children m r l d =>
          cases hpg : process_group children m r l d seg.tag s with
          | error e => rw [step_eq_group_err hn hseg hsk hel hpg] at hst; cases hst
          | ok s0 => rw [step_eq_group_ok hn hseg hsk hel hpg] at hst; cases hst
        | segment t m r l d =>
          cases hps : process_segment t m r l d seg s with
          | error e => rw [step_eq_segment_err hn hseg hsk hel hps] at hst; cases hst
          | ok s0 => rw [step_eq_segment_ok hn hseg hsk hel hps] at hst; cases hst

/-- A full run that stops normally preserves the state invariant. -/
theorem process_segments_min2 {grammar : List Element} {segments : List InputSegment} :
    ∀ (fuel : Nat) (s s' : MatchState),
      process_segments grammar segments fuel s = some (Except.ok s') →
      StateMin2 s → StateMin2 s' := by
  intro fuel
  induction fuel with
  | zero => intro s s' hrun; simp [process_segments] at hrun
  | succ k ih =>
    intro s s' hrun hs
    rw [process_segments] at hrun
    cases hst : step grammar segments s with
    | finished s0 =>
      rw [hst] at hrun
      simp at hrun
      rw [← hrun, (step_finished_inversion hst).1]
      exact hs
    | failed e =>
      rw [hst] at hrun
      simp at hrun
    | next s0 =>
      rw [hst] at hrun
      exact ih s0 s' hrun (step_min2 hst hs)

/-- Folding the still-open groups into the final mapping preserves the
invariant. -/
theorem finalizeData_min2 {s : MatchState} (h : StateMin2 s) : DictMin2 (finalizeData s) := by
  obtain ⟨hd, hcs⟩ := h
  unfold finalizeData
  cases hc : s.last_containers with
  | nil => exact hd
  | cons c rest =>
    have hfold : ∀ (l : List OpenGroup) (acc : OpenGroup), ContMin2 acc →
        (∀ c' ∈ l, ContMin2 c') →
        ContMin2 (l.foldl (fun inner o =>
          { o with elements := dictAdd o.elements inner.label inner.toNode }) acc) := by
      intro l
      induction l with
      | nil => intro acc hacc _; exact hacc
      | cons o rest' ih =>
        intro acc hacc hl
        have ho : ContMin2 o := hl o (List.mem_cons_self _ _)
        exact ih _ ⟨ho.1, dictAdd_min2 ho.2 (toNode_min2 hacc)⟩
          (fun c' hc' => hl c' (List.mem_cons_of_mem _ hc'))
    have hcmem : ContMin2 c := hcs c (by rw [hc]; exact List.mem_cons_self _ _)
    have houter := hfold rest c hcmem
      (fun c' hc' => hcs c' (by rw [hc]; exact List.mem_cons_of_mem _ hc'))
    exact dictAdd_min2 hd (toNode_min2 houter)

end GroupRepeatInvariant

/-- Claim C10: a group spec with the default `repeats = 1` is never
entered.  First conjunct: whenever the cursor reaches such a group,
`process_group` takes exactly the `process_end` (level-exhaustion) path —
for every input tag, so the tag is never consulted, and the pop closes the
whole current level, skipping the group's later siblings.  Second
conjunct: every group node anywhere in a final result tree satisfies
`NodeMin2`, i.e. carries `repeats ≥ 2`; hence no result group stemming
from a `repeats = 1` group spec (whose copies would carry `repeats = 1`)
can ever appear under any label. -/
theorem c10_default_repeat_group_never_entered :
    (∀ children m l d tag s,
      process_group children m 1 l d tag s = Except.ok (process_end s)) ∧
    (∀ grammar segments fuel s',
      process_segments grammar segments fuel (startState []) = some (Except.ok s') →
      DictMin2 (finalizeData s')) := by
  constructor
  · intro children m l d tag s
    simp [process_group, Nat.le_add_left]
  · intro grammar segments fuel s' hrun
    have hstart : StateMin2 (startState []) :=
      ⟨fun kv hkv => absurd hkv (List.not_mem_nil _),
       fun c hc => absurd hc (List.not_mem_nil _)⟩
    exact finalizeData_min2 (process_segments_min2 fuel _ s' hrun hstart)

/-- Witness for claim C10 at a concrete run (grammar `gOpt2`, one `B`
segment): the final result tree is `NodeMin2`-well-formed. -/
theorem c10_default_repeat_group_never_entered_witness :
    DictMin2 (finalizeData ⟨1, [0, 1], 0,
      [⟨false, 2, some "G", none, [(some "B", [nodeB])]⟩], []⟩) :=
  c10_default_repeat_group_never_entered.2 gOpt2 [segB] 10
    ⟨1, [0, 1], 0, [⟨false, 2, some "G", none, [(some "B", [nodeB])]⟩], []⟩ rfl

section RepeatCycles

/-- Lookup inside `List.replicate`. -/
theorem get?_replicate_of_lt {α : Type} {a : α} {j n : Nat} (h : j < n) :
    (List.replicate n a).get? j = some a := by
  induction n generalizing j with
  | zero => omega
  | succ n ih =>
    cases j with
    | zero => rfl
    | succ j =>
      rw [List.replicate_succ]
      exact ih (Nat.lt_of_succ_lt_succ h)

/-- Appending one more `G` occurrence to the `dataG` family. -/
theorem dictAdd_dataG (j : Nat) : dictAdd (dataG j) (some "G") gNodeG = dataG (j + 1) := by
  cases j with
  | zero => rfl
  | succ m => simp [dataG, dictAdd, List.replicate_succ']

/-- Iterating `addGs` walks the `dataG` family. -/
theorem addGs_dataG : ∀ (m j : Nat), addGs m (dataG j) = dataG (j + m) := by
  intro m
  induction m with
  | zero => intro j; rfl
  | succ m ih =>
    intro j
    show addGs m (dictAdd (dataG j) (some "G") gNodeG) = dataG (j + (m + 1))
    rw [dictAdd_dataG, ih (j + 1), show j + 1 + m = j + (m + 1) by omega]

/-- Appending one more `T` segment to the `dT` family. -/
theorem dictAdd_dT (j : Nat) : dictAdd (dT j) (some "T") nodeT = dT (j + 1) := by
  cases j with
  | zero => rfl
  | succ m => simp [dT, dictAdd, List.replicate_succ']

/-- Closed form of `groupCycleFuel`. -/
theorem groupCycleFuel_eq : ∀ m, groupCycleFuel m = 3 * m + 1 := by
  intro m
  induction m with
  | zero => rfl
  | succ m ih => show groupCycleFuel m + 1 + 1 + 1 = _; omega

/-- Closed form of `segCycleFuel`. -/
theorem segCycleFuel_eq : ∀ m, segCycleFuel m = m + 4 := by
  intro m
  induction m with
  | zero => rfl
  | succ m ih => show segCycleFuel m + 1 = _; omega

/-- One full group occurrence cycle of `gOpt2`: from a fresh cursor at the
group slot with repeat count `0` and `m` input segments `B` remaining, the
engine appends exactly `m` further `G` group occurrences and stops. -/
theorem gOpt2_cycle : ∀ (m j : Nat) (d : ResultDict),
    (process_segments gOpt2 (List.replicate (j + m) segB) (groupCycleFuel m)
        ⟨j, [0], 0, [], d⟩).map (Except.map finalizeData) =
      some (Except.ok (addGs m d)) := by
  intro m
  induction m with
  | zero =>
    intro j d
    rw [show groupCycleFuel 0 = 0 + 1 from rfl, process_segments,
      step_eq_finished (Or.inl (by simp [List.length_replicate]))]
    rfl
  | succ m ih =>
    intro j d
    have hlen : (List.replicate (j + (m + 1)) segB).length = j + (m + 1) :=
      List.length_replicate _ _
    have hseg : (List.replicate (j + (m + 1)) segB).get? j = some segB :=
      get?_replicate_of_lt (by omega)
    have hsk : ¬ (segB.tag = "UNA" ∨ segB.tag = "UNH" ∨ segB.tag = "BGM" ∨ segB.tag = "UNT") := by
      decide
    -- Step 1: enter the group (input index j not consumed).
    have hn0 : ¬ (j ≥ (List.replicate (j + (m + 1)) segB).length ∨
        ([0] : List Nat).length < 1) := by
      rw [hlen]
      exact not_or.mpr ⟨by omega, by decide⟩
    have hpg : process_group [Element.segment "B" true 1 none none] false 2 (some "G") none
        segB.tag ⟨j, [0], 0, [], d⟩ =
        Except.ok ⟨j, [0, 0], 1, [⟨false, 2, some "G", none, []⟩], d⟩ :=
      process_group_eq_enter (show ¬ (0 + 1 ≥ 2) by decide) rfl rfl
    have hstep0 : step gOpt2 (List.replicate (j + (m + 1)) segB) ⟨j, [0], 0, [], d⟩ =
        StepResult.next ⟨j, [0, 0], 1, [⟨false, 2, some "G", none, []⟩], d⟩ :=
      step_eq_group_ok hn0 hseg hsk rfl hpg
    -- Step 2: match the B segment against the group's first child.
    have hn1 : ¬ (j ≥ (List.replicate (j + (m + 1)) segB).length ∨
        ([0, 0] : List Nat).length < 1) := by
      rw [hlen]
      exact not_or.mpr ⟨by omega, by decide⟩
    have hps : process_segment "B" true 1 none none segB
        ⟨j, [0, 0], 1, [⟨false, 2, some "G", none, []⟩], d⟩ =
        Except.ok ⟨j + 1, [0, 1], 0,
          [⟨false, 2, some "G", none, [(some "B", [nodeB])]⟩], d⟩ :=
      process_segment_eq_match_adv rfl (show (1 : Nat) + 1 ≥ 1 by decide)
    have hstep1 : step gOpt2 (List.replicate (j + (m + 1)) segB)
        ⟨j, [0, 0], 1, [⟨false, 2, some "G", none, []⟩], d⟩ =
        StepResult.next ⟨j + 1, [0, 1], 0,
          [⟨false, 2, some "G", none, [(some "B", [nodeB])]⟩], d⟩ :=
      step_eq_segment_ok hn1 hseg hsk rfl hps
    rw [show groupCycleFuel (m + 1) = groupCycleFuel m + 1 + 1 + 1 from rfl,
      process_segments, hstep0]
    dsimp only
    rw [process_segments, hstep1]
    dsimp only
    cases m with
    | zero =>
      -- Last occurrence: the input is exhausted; the open group is folded in.
      rw [show groupCycleFuel 0 + 1 = 1 + 1 from rfl, process_segments,
        step_eq_finished (Or.inl (by rw [hlen]))]
      rfl
    | succ m' =>
      -- More input: the exhausted group level pops and the cycle restarts.
      have hn2 : ¬ (j + 1 ≥ (List.replicate (j + (m' + 1 + 1)) segB).length ∨
          ([0, 1] : List Nat).length < 1) := by
        rw [hlen]
        exact not_or.mpr ⟨by omega, by decide⟩
      have hseg2 : (List.replicate (j + (m' + 1 + 1)) segB).get? (j + 1) = some segB :=
        get?_replicate_of_lt (by omega)
      have hstep2 : step gOpt2 (List.replicate (j + (m' + 1 + 1)) segB)
          ⟨j + 1, [0, 1], 0, [⟨false, 2, some "G", none, [(some "B", [nodeB])]⟩], d⟩ =
          StepResult.next ⟨j + 1, [0], 0, [], dictAdd d (some "G") gNodeG⟩ :=
        step_eq_none hn2 hseg2 hsk rfl
      rw [process_segments, hstep2]
      dsimp only
      have := ih (j + 1) (dictAdd d (some "G") gNodeG)
      rw [show j + 1 + (m' + 1) = j + (m' + 1 + 1) by omega] at this
      exact this

end RepeatCycles

/-- Claim C5, counterexample: the group of `gOpt2` declares
`max_repeats = 2`, yet three consecutive `B` segments make the engine
enter the same group slot three consecutive times, appending three
`ResultGroup` instances under label `G` — more than the declared bound. -/
theorem c5_counterexample :
    runMatch gOpt2 [segB, segB, segB] 20 [] =
      some (Except.ok [(some "G", [gNodeG, gNodeG, gNodeG])]) ∧
    ¬ (dictGet [(some "G", [gNodeG, gNodeG, gNodeG])] (some "G")).length ≤ 2 :=
  ⟨rfl, by decide⟩

/-- Claim C5, amended: the number of consecutive entries of a group slot is
not bounded by its `max_repeats`: every pop back out of the group resets
the repeat counter to `0`, so the exhaustion test never accumulates across
occurrences.  A group with `max_repeats = 2` is entered once per matching
input segment: `k` consecutive `B` segments yield exactly `k` result
groups under its label, for every `k`. -/
theorem c5_group_entries_unbounded (k : Nat) :
    runMatch gOpt2 (List.replicate k segB) (3 * k + 1) [] =
      some (Except.ok (dataG k)) ∧
    (dictGet (dataG k) (some "G")).length = k := by
  constructor
  · have h := gOpt2_cycle k 0 []
    rw [Nat.zero_add, groupCycleFuel_eq] at h
    have h2 : addGs k ([] : ResultDict) = dataG k := by
      have h0 := addGs_dataG k 0
      rwa [Nat.zero_add] at h0
    rw [h2] at h
    exact h
  · cases k with
    | zero => rfl
    | succ m => simp [dataG, dictGet]

/-- Witness for the amended claim C5 at `k = 3`: three `B` segments yield
three result groups under the `max_repeats = 2` group's label. -/
theorem c5_group_entries_unbounded_witness :
    runMatch gOpt2 (List.replicate 3 segB) (3 * 3 + 1) [] =
      some (Except.ok (dataG 3)) ∧
    (dictGet (dataG 3) (some "G")).length = 3 :=
  c5_group_entries_unbounded 3

/-- One repeat cycle of the `T` slot of `gSegRep`: with repeat count `j`
and `m + 1` further matches available before the slot's budget `j + m + 1`
runs out, the engine consumes them all, then skips the optional sibling
`U` on the leftover `T`, pops the root level and stops. -/
theorem gSegRep_cycle : ∀ (m j : Nat),
    (process_segments (gSegRep (j + m + 1)) (List.replicate (j + m + 2) segT)
        (segCycleFuel m) ⟨j, [0], j, [], dT j⟩).map (Except.map finalizeData) =
      some (Except.ok (dT (j + m + 1))) := by
  intro m
  induction m with
  | zero =>
    intro j
    have hlen : (List.replicate (j + 0 + 2) segT).length = j + 0 + 2 :=
      List.length_replicate _ _
    have hsk : ¬ (segT.tag = "UNA" ∨ segT.tag = "UNH" ∨ segT.tag = "BGM" ∨ segT.tag = "UNT") := by
      decide
    have hseg : (List.replicate (j + 0 + 2) segT).get? j = some segT :=
      get?_replicate_of_lt (by omega)
    have hseg1 : (List.replicate (j + 0 + 2) segT).get? (j + 1) = some segT :=
      get?_replicate_of_lt (by omega)
    -- Final match of the T slot: budget exhausted, advance to the sibling.
    have hn0 : ¬ (j ≥ (List.replicate (j + 0 + 2) segT).length ∨
        ([0] : List Nat).length < 1) := by
      rw [hlen]
      exact not_or.mpr ⟨by omega, by decide⟩
    have hraw0 : process_segment "T" true (j + 0 + 1) none none segT
        ⟨j, [0], j, [], dT j⟩ =
        Except.ok ⟨j + 1, [1], 0, [], dictAdd (dT j) (some "T") nodeT⟩ :=
      process_segment_eq_match_adv rfl (show j + 1 ≥ j + 0 + 1 by omega)
    have hps0 : process_segment "T" true (j + 0 + 1) none none segT
        ⟨j, [0], j, [], dT j⟩ = Except.ok ⟨j + 1, [1], 0, [], dT (j + 1)⟩ := by
      rw [hraw0, dictAdd_dT]
    have hstep0 : step (gSegRep (j + 0 + 1)) (List.replicate (j + 0 + 2) segT)
        ⟨j, [0], j, [], dT j⟩ = StepResult.next ⟨j + 1, [1], 0, [], dT (j + 1)⟩ :=
      step_eq_segment_ok hn0 hseg hsk rfl hps0
    -- The next T is evaluated against the optional sibling U and skipped.
    have hn1 : ¬ (j + 1 ≥ (List.replicate (j + 0 + 2) segT).length ∨
        ([1] : List Nat).length < 1) := by
      rw [hlen]
      exact not_or.mpr ⟨by omega, by decide⟩
    have hps1 : process_segment "U" false 1 none none segT
        ⟨j + 1, [1], 0, [], dT (j + 1)⟩ = Except.ok ⟨j + 1, [2], 0, [], dT (j + 1)⟩ :=
      process_segment_eq_skip (show ¬ "U" = segT.tag by decide)
        (show ¬ (false = true ∧ (0 : Nat) = 0) by simp)
    have hstep1 : step (gSegRep (j + 0 + 1)) (List.replicate (j + 0 + 2) segT)
        ⟨j + 1, [1], 0, [], dT (j + 1)⟩ =
        StepResult.next ⟨j + 1, [2], 0, [], dT (j + 1)⟩ :=
      step_eq_segment_ok hn1 hseg1 hsk rfl hps1
    -- The root level is exhausted and pops to the empty path.
    have hn2 : ¬ (j + 1 ≥ (List.replicate (j + 0 + 2) segT).length ∨
        ([2] : List Nat).length < 1) := by
      rw [hlen]
      exact not_or.mpr ⟨by omega, by decide⟩
    have hstep2 : step (gSegRep (j + 0 + 1)) (List.replicate (j + 0 + 2) segT)
        ⟨j + 1, [2], 0, [], dT (j + 1)⟩ =
        StepResult.next ⟨j + 1, [], 0, [], dT (j + 1)⟩ :=
      step_eq_none hn2 hseg1 hsk rfl
    rw [show segCycleFuel 0 = 1 + 1 + 1 + 1 from rfl, process_segments, hstep0]
    dsimp only
    rw [process_segments, hstep1]
    dsimp only
    rw [process_segments, hstep2]
    dsimp only
    rw [process_segments,
      step_eq_finished (Or.inr (show ([] : List Nat).length < 1 by decide))]
    rfl
  | succ m ih =>
    intro j
    have hlen : (List.replicate (j + (m + 1) + 2) segT).length = j + (m + 1) + 2 :=
      List.length_replicate _ _
    have hsk : ¬ (segT.tag = "UNA" ∨ segT.tag = "UNH" ∨ segT.tag = "BGM" ∨ segT.tag = "UNT") := by
      decide
    have hseg : (List.replicate (j + (m + 1) + 2) segT).get? j = some segT :=
      get?_replicate_of_lt (by omega)
    have hn0 : ¬ (j ≥ (List.replicate (j + (m + 1) + 2) segT).length ∨
        ([0] : List Nat).length < 1) := by
      rw [hlen]
      exact not_or.mpr ⟨by omega, by decide⟩
    -- Non-final match: stay on the slot with the counter bumped.
    have hraw0 : process_segment "T" true (j + (m + 1) + 1) none none segT
        ⟨j, [0], j, [], dT j⟩ =
        Except.ok ⟨j + 1, [0], j + 1, [], dictAdd (dT j) (some "T") nodeT⟩ :=
      process_segment_eq_match_stay rfl (show ¬ j + 1 ≥ j + (m + 1) + 1 by omega)
    have hps0 : process_segment "T" true (j + (m + 1) + 1) none none segT
        ⟨j, [0], j, [], dT j⟩ = Except.ok ⟨j + 1, [0], j + 1, [], dT (j + 1)⟩ := by
      rw [hraw0, dictAdd_dT]
    have hstep0 : step (gSegRep (j + (m + 1) + 1)) (List.replicate (j + (m + 1) + 2) segT)
        ⟨j, [0], j, [], dT j⟩ = StepResult.next ⟨j + 1, [0], j + 1, [], dT (j + 1)⟩ :=
      step_eq_segment_ok hn0 hseg hsk rfl hps0
    rw [show segCycleFuel (m + 1) = segCycleFuel m + 1 from rfl, process_segments, hstep0]
    dsimp only
    have h := ih (j + 1)
    rw [show j + 1 + m + 1 = j + (m + 1) + 1 by omega,
      show j + 1 + m + 2 = j + (m + 1) + 2 by omega] at h
    exact h

/-- Claim C6: a mandatory segment spec with `max_repeats = N ≥ 1` at the
cursor with repeat count `0`, fed `N + 1` consecutive `T` segments,
appends exactly `N` result segments under its label and advances the
cursor past the slot; the `(N+1)`-th `T` is then evaluated against the
next sibling (the optional `U` spec, which skips it), so the run stops
with that segment unconsumed and exactly `N` entries under `T`. -/
theorem c6_segment_repeats_exact (N : Nat) (hN : 1 ≤ N) :
    runMatch (gSegRep N) (List.replicate (N + 1) segT) (N + 3) [] =
      some (Except.ok (dT N)) ∧
    (dictGet (dT N) (some "T")).length = N ∧
    step (gSegRep N) (List.replicate (N + 1) segT) ⟨N, [1], 0, [], dT N⟩ =
      StepResult.next ⟨N, [2], 0, [], dT N⟩ := by
  obtain ⟨m, rfl⟩ : ∃ m, N = m + 1 := ⟨N - 1, by omega⟩
  refine ⟨?_, ?_, ?_⟩
  · have h := gSegRep_cycle m 0
    rw [segCycleFuel_eq,
      show (0 + m + 1 : Nat) = m + 1 by omega,
      show (0 + m + 2 : Nat) = m + 2 by omega] at h
    exact h
  · simp [dT, dictGet]
  · have hn : ¬ (m + 1 ≥ (List.replicate (m + 1 + 1) segT).length ∨
        ([1] : List Nat).length < 1) := by
      rw [List.length_replicate]
      exact not_or.mpr ⟨by omega, by decide⟩
    have hseg : (List.replicate (m + 1 + 1) segT).get? (m + 1) = some segT :=
      get?_replicate_of_lt (by omega)
    have hsk : ¬ (segT.tag = "UNA" ∨ segT.tag = "UNH" ∨ segT.tag = "BGM" ∨ segT.tag = "UNT") := by
      decide
    have hps : process_segment "U" false 1 none none segT
        ⟨m + 1, [1], 0, [], dT (m + 1)⟩ =
        Except.ok ⟨m + 1, [2], 0, [], dT (m + 1)⟩ :=
      process_segment_eq_skip (show ¬ "U" = segT.tag by decide)
        (show ¬ (false = true ∧ (0 : Nat) = 0) by simp)
    exact step_eq_segment_ok hn hseg hsk rfl hps

/-- Witness for claim C6 at `N = 2`. -/
theorem c6_segment_repeats_exact_witness :
    runMatch (gSegRep 2) (List.replicate 3 segT) 5 [] = some (Except.ok (dT 2)) ∧
    (dictGet (dT 2) (some "T")).length = 2 ∧
    step (gSegRep 2) (List.replicate 3 segT) ⟨2, [1], 0, [], dT 2⟩ =
      StepResult.next ⟨2, [2], 0, [], dT 2⟩ :=
  c6_segment_repeats_exact 2 (by decide)

section PathLemmas

/-- The initial cursor path is well-formed for every grammar. -/
theorem pathOK_zero (els : List Element) : pathOK els [0] = true := by
  rw [pathOK, Bool.and_eq_true]
  refine ⟨decide_eq_true (Nat.zero_le _), ?_⟩
  cases hg : els.get? 0 with
  | none => rfl
  | some el => cases el <;> rfl

/-- A well-formed path at the cursor position of a non-empty path has its
head index within one step of the level. -/
theorem pathOK_head_le {els : List Element} {i : Nat} {rest : List Nat}
    (h : pathOK els (i :: rest) = true) : i ≤ els.length := by
  have h' := h
  rw [pathOK, Bool.and_eq_true] at h'
  exact of_decide_eq_true h'.1

/-- Popping a path level preserves well-formedness. -/
theorem pathOK_dropLast : ∀ (p : List Nat) (els : List Element),
    pathOK els p = true → pathOK els p.dropLast = true := by
  intro p
  induction p with
  | nil => intro els h; exact h
  | cons i rest ih =>
    intro els h
    cases rest with
    | nil => rfl
    | cons j rest' =>
      show pathOK els (i :: (j :: rest').dropLast) = true
      rw [pathOK, Bool.and_eq_true] at h ⊢
      obtain ⟨h1, h2⟩ := h
      refine ⟨h1, ?_⟩
      cases hg : els.get? i with
      | none => rw [hg] at h2; simp at h2
      | some el =>
        cases el with
        | segment t m r l d => rw [hg] at h2; simp at h2
        | group children m r l d =>
          rw [hg] at h2
          dsimp only at h2 ⊢
          exact ih children h2

/-- Popping a level strictly decreases the potential of a well-formed,
non-empty path. -/
theorem pathPot_dropLast_lt : ∀ (p : List Nat) (els : List Element),
    pathOK els p = true → p ≠ [] → pathPot els p.dropLast < pathPot els p := by
  intro p
  induction p with
  | nil => intro els _ hne; exact absurd rfl hne
  | cons i rest ih =>
    intro els h _
    have hle : i ≤ els.length := pathOK_head_le h
    cases rest with
    | nil =>
      show pathPot els [] < pathPot els [i]
      rw [pathPot, pathPot]
      omega
    | cons j rest' =>
      show pathPot els (i :: (j :: rest').dropLast) < pathPot els (i :: (j :: rest'))
      rw [pathOK, Bool.and_eq_true] at h
      obtain ⟨h1, h2⟩ := h
      rw [pathPot, pathPot]
      cases hg : els.get? i with
      | none => rw [hg] at h2; simp at h2
      | some el =>
        cases el with
        | segment t m r l d => rw [hg] at h2; simp at h2
        | group children m r l d =>
          rw [hg] at h2
          dsimp only at h2 ⊢
          exact Nat.add_lt_add_left (ih children h2 (by simp)) _

/-- A positive potential for every well-formed non-empty path. -/
theorem pathPot_pos {els : List Element} {i : Nat} {rest : List Nat}
    (h : pathOK els (i :: rest) = true) : 1 ≤ pathPot els (i :: rest) := by
  have hle : i ≤ els.length := pathOK_head_le h
  rw [pathPot]
  omega

/-- A resolved path stays well-formed after the sibling-index increment. -/
theorem pathOK_incrLast : ∀ (p : List Nat) (els : List Element) (e : Element),
    get_element els p = some e → pathOK els p = true →
    pathOK els (incrLast p) = true := by
  intro p
  induction p with
  | nil => intro els e hget; simp [get_element] at hget
  | cons i rest ih =>
    intro els e hget h
    cases rest with
    | nil =>
      have hi : i < els.length :=
        lt_length_of_get? (show els.get? i = some e from hget)
      show pathOK els [i + 1] = true
      rw [pathOK, Bool.and_eq_true]
      refine ⟨decide_eq_true (by omega), ?_⟩
      cases hg : els.get? (i + 1) with
      | none => rfl
      | some el => cases el <;> rfl
    | cons j rest' =>
      show pathOK els (i :: incrLast (j :: rest')) = true
      rw [pathOK, Bool.and_eq_true] at h ⊢
      obtain ⟨h1, h2⟩ := h
      refine ⟨h1, ?_⟩
      rw [get_element] at hget
      cases hg : els.get? i with
      | none => rw [hg] at hget; simp at hget
      | some el =>
        cases el with
        | segment t m r l d => rw [hg] at hget; simp at hget
        | group children m r l d =>
          rw [hg] at hget h2
          dsimp only at hget h2 ⊢
          exact ih children e hget h2

/-- The sibling-index increment strictly decreases the potential of a
resolved path. -/
theorem pathPot_incrLast_lt : ∀ (p : List Nat) (els : List Element) (e : Element),
    get_element els p = some e → pathPot els (incrLast p) < pathPot els p := by
  intro p
  induction p with
  | nil => intro els e hget; simp [get_element] at hget
  | cons i rest ih =>
    intro els e hget
    cases rest with
    | nil =>
      have hgi : els.get? i = some e := hget
      have hi : i < els.length := lt_length_of_get? hgi
      show pathPot els [i + 1] < pathPot els [i]
      rw [pathPot, pathPot, hgi]
      have h1 : (match els.get? (i + 1) with
          | some (Element.group children _ _ _ _) => pathPot children []
          | _ => 0) = 0 := by
        cases hg : els.get? (i + 1) with
        | none => rfl
        | some el => cases el <;> rfl
      rw [h1]
      cases e with
      | segment t m r l d => dsimp only; omega
      | group children m r l d => dsimp only [pathPot]; omega
    | cons j rest' =>
      show pathPot els (i :: incrLast (j :: rest')) < pathPot els (i :: (j :: rest'))
      rw [get_element] at hget
      rw [pathPot, pathPot]
      cases hg : els.get? i with
      | none => rw [hg] at hget; simp at hget
      | some el =>
        cases el with
        | segment t m r l d => rw [hg] at hget; simp at hget
        | group children m r l d =>
          rw [hg] at hget
          dsimp only at hget ⊢
          exact Nat.add_lt_add_left (ih children e hget) _

/-- Entering a group appends `0` to the path and resolves to the group's
first child. -/
theorem get_element_append_zero : ∀ (p : List Nat) (els children : List Element)
    (m : Bool) (r : Nat) (l d : Option String),
    get_element els p = some (Element.group children m r l d) →
    get_element els (p ++ [0]) = children.get? 0 := by
  intro p
  induction p with
  | nil => intro els children m r l d hget; simp [get_element] at hget
  | cons i rest ih =>
    intro els children m r l d hget
    cases rest with
    | nil =>
      have hgi : els.get? i = some (Element.group children m r l d) := hget
      show get_element els [i, 0] = children.get? 0
      rw [get_element, hgi]
      rfl
    | cons j rest' =>
      rw [get_element] at hget
      show get_element els (i :: ((j :: rest') ++ [0])) = children.get? 0
      rw [List.cons_append, get_element]
      cases hg : els.get? i with
      | none => rw [hg] at hget; simp at hget
      | some el =>
        cases el with
        | segment t m' r' l' d' => rw [hg] at hget; simp at hget
        | group children' m' r' l' d' =>
          rw [hg] at hget
          dsimp only at hget ⊢
          rw [← List.cons_append]
          exact ih children' children m r l d hget

/-- Entering a group whose first child is a segment keeps the path
well-formed. -/
theorem pathOK_append_zero : ∀ (p : List Nat) (els children : List Element)
    (m : Bool) (r : Nat) (l d : Option String) (t0 : String),
    get_element els p = some (Element.group children m r l d) →
    firstChildTag children = some t0 →
    pathOK els p = true → pathOK els (p ++ [0]) = true := by
  intro p
  induction p with
  | nil => intro els children m r l d t0 hget; simp [get_element] at hget
  | cons i rest ih =>
    intro els children m r l d t0 hget hf h
    cases rest with
    | nil =>
      have hgi : els.get? i = some (Element.group children m r l d) := hget
      show pathOK els [i, 0] = true
      rw [pathOK, Bool.and_eq_true]
      refine ⟨(by rw [pathOK, Bool.and_eq_true] at h; exact h.1), ?_⟩
      rw [hgi]
      dsimp only
      cases children with
      | nil => simp [firstChildTag] at hf
      | cons c rest' =>
        cases c with
        | group gc gm gr gl gd => simp [firstChildTag] at hf
        | segment tc sm sr sl sd =>
          rw [pathOK, Bool.and_eq_true]
          exact ⟨decide_eq_true (by simp), rfl⟩
    | cons j rest' =>
      rw [get_element] at hget
      rw [pathOK, Bool.and_eq_true] at h
      obtain ⟨h1, h2⟩ := h
      show pathOK els (i :: ((j :: rest') ++ [0])) = true
      rw [pathOK, Bool.and_eq_true]
      refine ⟨h1, ?_⟩
      cases hg : els.get? i with
      | none => rw [hg] at hget; simp at hget
      | some el =>
        cases el with
        | segment t' m' r' l' d' => rw [hg] at hget; simp at hget
        | group children' m' r' l' d' =>
          rw [hg] at hget h2
          dsimp only at hget h2 ⊢
          exact ih children' children m r l d t0 hget hf h2

/-- The method `process_end` keeps the segment index. -/
theorem process_end_segment_index (s : MatchState) :
    (process_end s).segment_index = s.segment_index := by
  unfold process_end
  cases s.last_containers with
  | nil => rfl
  | cons c rest => cases rest <;> rfl

/-- The method `process_end` pops the deepest path index. -/
theorem process_end_indices (s : MatchState) :
    (process_end s).elements_indices = s.elements_indices.dropLast := by
  unfold process_end
  cases s.last_containers with
  | nil => rfl
  | cons c rest => cases rest <;> rfl

end PathLemmas

section Termination

/-- The engine terminates from every state with a well-formed cursor path:
some amount of fuel makes `process_segments` return.  The induction is on
the number of unconsumed input segments and, inside it, on the path
potential: every iteration either consumes a segment, pops or advances the
cursor (shrinking the potential), raises, or enters a group — and a group
entry is immediately followed by a consuming match of the group's first
child, since entry requires that child to be a segment spec carrying the
current input tag. -/
theorem process_segments_total {grammar : List Element} {segments : List InputSegment} :
    ∀ s : MatchState, pathOK grammar s.elements_indices = true →
    ∃ k, (process_segments grammar segments k s).isSome = true := by
  suffices H : ∀ (rem pot : Nat) (s : MatchState),
      segments.length - s.segment_index ≤ rem →
      pathPot grammar s.elements_indices ≤ pot →
      pathOK grammar s.elements_indices = true →
      ∃ k, (process_segments grammar segments k s).isSome = true by
    intro s hok
    exact H (segments.length - s.segment_index) (pathPot grammar s.elements_indices) s
      le_rfl le_rfl hok
  intro rem
  induction rem with
  | zero =>
    intro pot s hrem _ _
    refine ⟨1, ?_⟩
    rw [process_segments, step_eq_finished (Or.inl (by omega))]
    rfl
  | succ rem ihrem =>
    intro pot
    induction pot with
    | zero =>
      intro s hrem hpot hok
      by_cases hterm : s.segment_index ≥ segments.length ∨ s.elements_indices.length < 1
      · refine ⟨1, ?_⟩
        rw [process_segments, step_eq_finished hterm]
        rfl
      · exfalso
        push_neg at hterm
        obtain ⟨hidx, hlen⟩ := hterm
        cases hp : s.elements_indices with
        | nil => rw [hp] at hlen; simp at hlen
        | cons i rest =>
          have hok' := hok
          rw [hp] at hok'
          have hpos := pathPot_pos hok'
          rw [hp] at hpot
          omega
    | succ pot ihpot =>
      intro s hrem hpot hok
      by_cases hterm : s.segment_index ≥ segments.length ∨ s.elements_indices.length < 1
      · refine ⟨1, ?_⟩
        rw [process_segments, step_eq_finished hterm]
        rfl
      · obtain ⟨seg, hseg⟩ := exists_seg_of_not_finished hterm
        have hidx : s.segment_index < segments.length := lt_length_of_get? hseg
        have hne : s.elements_indices ≠ [] := by
          intro h0
          exact hterm (Or.inr (by rw [h0]; decide))
        by_cases hskip : seg.tag = "UNA" ∨ seg.tag = "UNH" ∨ seg.tag = "BGM" ∨ seg.tag = "UNT"
        · -- Envelope tag: the segment is consumed without consulting the grammar.
          obtain ⟨k, hk⟩ := ihrem (pathPot grammar s.elements_indices)
            ⟨s.segment_index + 1, s.elements_indices, s.repeats, s.last_containers, s.data⟩
            (show segments.length - (s.segment_index + 1) ≤ rem by omega)
            (show pathPot grammar s.elements_indices ≤ pathPot grammar s.elements_indices from le_rfl)
            (show pathOK grammar s.elements_indices = true from hok)
          refine ⟨k + 1, ?_⟩
          rw [process_segments, step_eq_skiptag hterm hseg hskip]
          exact hk
        · cases hel : get_element grammar s.elements_indices with
          | none =>
            -- Level exhausted: pop, potential shrinks.
            obtain ⟨k, hk⟩ := ihpot (process_end s)
              (show segments.length - (process_end s).segment_index ≤ rem + 1 by
                rw [process_end_segment_index]; exact hrem)
              (show pathPot grammar (process_end s).elements_indices ≤ pot by
                rw [process_end_indices]
                have h2 := pathPot_dropLast_lt s.elements_indices grammar hok hne
                omega)
              (by rw [process_end_indices]; exact pathOK_dropLast _ _ hok)
            refine ⟨k + 1, ?_⟩
            rw [process_segments, step_eq_none hterm hseg hskip hel]
            exact hk
          | some el =>
            cases el with
            | segment t m r l d =>
              by_cases hteq : t = seg.tag
              · -- Matching segment: consumed either way.
                by_cases hrep : s.repeats + 1 ≥ r
                · obtain ⟨k, hk⟩ := ihrem (pathPot grammar (incrLast s.elements_indices))
                    ⟨s.segment_index + 1, incrLast s.elements_indices, 0,
                     (add_element (some (l.getD t)) (ResultNode.segment seg.data t (l.getD t) d)
                       s.last_containers s.data).1,
                     (add_element (some (l.getD t)) (ResultNode.segment seg.data t (l.getD t) d)
                       s.last_containers s.data).2⟩
                    (show segments.length - (s.segment_index + 1) ≤ rem by omega)
                    (show pathPot grammar (incrLast s.elements_indices) ≤
                      pathPot grammar (incrLast s.elements_indices) from le_rfl)
                    (show pathOK grammar (incrLast s.elements_indices) = true from
                      pathOK_incrLast _ _ _ hel hok)
                  refine ⟨k + 1, ?_⟩
                  rw [process_segments, step_eq_segment_ok hterm hseg hskip hel
                    (process_segment_eq_match_adv hteq hrep)]
                  exact hk
                · obtain ⟨k, hk⟩ := ihrem (pathPot grammar s.elements_indices)
                    ⟨s.segment_index + 1, s.elements_indices, s.repeats + 1,
                     (add_element (some (l.getD t)) (ResultNode.segment seg.data t (l.getD t) d)
                       s.last_containers s.data).1,
                     (add_element (some (l.getD t)) (ResultNode.segment seg.data t (l.getD t) d)
                       s.last_containers s.data).2⟩
                    (show segments.length - (s.segment_index + 1) ≤ rem by omega)
                    (show pathPot grammar s.elements_indices ≤
                      pathPot grammar s.elements_indices from le_rfl)
                    (show pathOK grammar s.elements_indices = true from hok)
                  refine ⟨k + 1, ?_⟩
                  rw [process_segments, step_eq_segment_ok hterm hseg hskip hel
                    (process_segment_eq_match_stay hteq hrep)]
                  exact hk
              · by_cases hmand : m = true ∧ s.repeats = 0
                · -- Missing mandatory segment: the engine raises and stops.
                  refine ⟨1, ?_⟩
                  rw [process_segments, step_eq_segment_err hterm hseg hskip hel
                    (process_segment_eq_error hteq hmand.1 hmand.2)]
                  rfl
                · -- Skip to the next sibling: potential shrinks.
                  obtain ⟨k, hk⟩ := ihpot
                    ⟨s.segment_index, incrLast s.elements_indices, 0, s.last_containers, s.data⟩
                    (show segments.length - s.segment_index ≤ rem + 1 from hrem)
                    (show pathPot grammar (incrLast s.elements_indices) ≤ pot by
                      have h2 := pathPot_incrLast_lt s.elements_indices grammar _ hel
                      omega)
                    (show pathOK grammar (incrLast s.elements_indices) = true from
                      pathOK_incrLast _ _ _ hel hok)
                  refine ⟨k + 1, ?_⟩
                  rw [process_segments, step_eq_segment_ok hterm hseg hskip hel
                    (process_segment_eq_skip hteq hmand)]
                  exact hk
            | group children m r l d =>
              by_cases hrep : s.repeats + 1 ≥ r
              · -- Group budget exhausted: behaves as a pop.
                obtain ⟨k, hk⟩ := ihpot (process_end s)
                  (show segments.length - (process_end s).segment_index ≤ rem + 1 by
                    rw [process_end_segment_index]; exact hrem)
                  (show pathPot grammar (process_end s).elements_indices ≤ pot by
                    rw [process_end_indices]
                    have h2 := pathPot_dropLast_lt s.elements_indices grammar hok hne
                    omega)
                  (by rw [process_end_indices]; exact pathOK_dropLast _ _ hok)
                refine ⟨k + 1, ?_⟩
                rw [process_segments, step_eq_group_ok hterm hseg hskip hel
                  (process_group_eq_end hrep)]
                exact hk
              · cases hf : firstChildTag children with
                | none =>
                  -- Group-headed or childless group: the engine crashes and stops.
                  refine ⟨1, ?_⟩
                  rw [process_segments, step_eq_group_err hterm hseg hskip hel
                    (process_group_eq_crash hrep hf)]
                  rfl
                | some t0 =>
                  by_cases ht0 : t0 = seg.tag
                  · -- Group entry; the very next iteration consumes the segment.
                    obtain ⟨sm, sr, sl, sd, rest, hch⟩ :
                        ∃ sm sr sl sd rest, children = Element.segment t0 sm sr sl sd :: rest := by
                      cases children with
                      | nil => simp [firstChildTag] at hf
                      | cons c rest =>
                        cases c with
                        | group gc gm gr gl gd => simp [firstChildTag] at hf
                        | segment tc m2 r2 l2 d2 =>
                          have htc : tc = t0 := by simpa [firstChildTag] using hf
                          exact ⟨m2, r2, l2, d2, rest, by rw [htc]⟩
                    have hel1 : get_element grammar (s.elements_indices ++ [0]) =
                        some (Element.segment t0 sm sr sl sd) := by
                      rw [get_element_append_zero s.elements_indices grammar children m r l d hel,
                        hch]
                      rfl
                    have hok1 : pathOK grammar (s.elements_indices ++ [0]) = true :=
                      pathOK_append_zero _ _ children m r l d t0 hel hf hok
                    have hterm1 : ¬ (s.segment_index ≥ segments.length ∨
                        (s.elements_indices ++ [0]).length < 1) := by
                      push_neg
                      exact ⟨hidx, by simp⟩
                    have hstep1 : step grammar segments s = StepResult.next
                        ⟨s.segment_index, s.elements_indices ++ [0], s.repeats + 1,
                         ⟨m, r, l, d, []⟩ :: s.last_containers, s.data⟩ :=
                      step_eq_group_ok hterm hseg hskip hel (process_group_eq_enter hrep hf ht0)
                    by_cases hrep1 : s.repeats + 1 + 1 ≥ sr
                    · have hps2 : process_segment t0 sm sr sl sd seg
                          ⟨s.segment_index, s.elements_indices ++ [0], s.repeats + 1,
                           ⟨m, r, l, d, []⟩ :: s.last_containers, s.data⟩ =
                          Except.ok ⟨s.segment_index + 1, incrLast (s.elements_indices ++ [0]), 0,
                            (add_element (some (sl.getD t0))
                              (ResultNode.segment seg.data t0 (sl.getD t0) sd)
                              (⟨m, r, l, d, []⟩ :: s.last_containers) s.data).1,
                            (add_element (some (sl.getD t0))
                              (ResultNode.segment seg.data t0 (sl.getD t0) sd)
                              (⟨m, r, l, d, []⟩ :: s.last_containers) s.data).2⟩ :=
                        process_segment_eq_match_adv ht0
                          (show s.repeats + 1 + 1 ≥ sr from hrep1)
                      obtain ⟨k, hk⟩ := ihrem
                        (pathPot grammar (incrLast (s.elements_indices ++ [0])))
                        ⟨s.segment_index + 1, incrLast (s.elements_indices ++ [0]), 0,
                         (add_element (some (sl.getD t0))
                           (ResultNode.segment seg.data t0 (sl.getD t0) sd)
                           (⟨m, r, l, d, []⟩ :: s.last_containers) s.data).1,
                         (add_element (some (sl.getD t0))
                           (ResultNode.segment seg.data t0 (sl.getD t0) sd)
                           (⟨m, r, l, d, []⟩ :: s.last_containers) s.data).2⟩
                        (show segments.length - (s.segment_index + 1) ≤ rem by omega)
                        (show pathPot grammar (incrLast (s.elements_indices ++ [0])) ≤
                          pathPot grammar (incrLast (s.elements_indices ++ [0])) from le_rfl)
                        (show pathOK grammar (incrLast (s.elements_indices ++ [0])) = true from
                          pathOK_incrLast _ _ _ hel1 hok1)
                      have hstep2 : step grammar segments
                          (⟨s.segment_index, s.elements_indices ++ [0], s.repeats + 1,
                            ⟨m, r, l, d, []⟩ :: s.last_containers, s.data⟩ : MatchState) =
                          StepResult.next ⟨s.segment_index + 1,
                            incrLast (s.elements_indices ++ [0]), 0,
                            (add_element (some (sl.getD t0))
                              (ResultNode.segment seg.data t0 (sl.getD t0) sd)
                              (⟨m, r, l, d, []⟩ :: s.last_containers) s.data).1,
                            (add_element (some (sl.getD t0))
                              (ResultNode.segment seg.data t0 (sl.getD t0) sd)
                              (⟨m, r, l, d, []⟩ :: s.last_containers) s.data).2⟩ :=
                        step_eq_segment_ok hterm1
                          (show segments.get? s.segment_index = some seg from hseg)
                          hskip hel1 hps2
                      refine ⟨k + 1 + 1, ?_⟩
                      rw [process_segments, hstep1]
                      dsimp only
                      rw [process_segments, hstep2]
                      exact hk
                    · have hps2 : process_segment t0 sm sr sl sd seg
                          ⟨s.segment_index, s.elements_indices ++ [0], s.repeats + 1,
                           ⟨m, r, l, d, []⟩ :: s.last_containers, s.data⟩ =
                          Except.ok ⟨s.segment_index + 1, s.elements_indices ++ [0],
                            s.repeats + 1 + 1,
                            (add_element (some (sl.getD t0))
                              (ResultNode.segment seg.data t0 (sl.getD t0) sd)
                              (⟨m, r, l, d, []⟩ :: s.last_containers) s.data).1,
                            (add_element (some (sl.getD t0))
                              (ResultNode.segment seg.data t0 (sl.getD t0) sd)
                              (⟨m, r, l, d, []⟩ :: s.last_containers) s.data).2⟩ :=
                        process_segment_eq_match_stay ht0
                          (show ¬ s.repeats + 1 + 1 ≥ sr from hrep1)
                      obtain ⟨k, hk⟩ := ihrem
                        (pathPot grammar (s.elements_indices ++ [0]))
                        ⟨s.segment_index + 1, s.elements_indices ++ [0], s.repeats + 1 + 1,
                         (add_element (some (sl.getD t0))
                           (ResultNode.segment seg.data t0 (sl.getD t0) sd)
                           (⟨m, r, l, d, []⟩ :: s.last_containers) s.data).1,
                         (add_element (some (sl.getD t0))
                           (ResultNode.segment seg.data t0 (sl.getD t0) sd)
                           (⟨m, r, l, d, []⟩ :: s.last_containers) s.data).2⟩
                        (show segments.length - (s.segment_index + 1) ≤ rem by omega)
                        (show pathPot grammar (s.elements_indices ++ [0]) ≤
                          pathPot grammar (s.elements_indices ++ [0]) from le_rfl)
                        (show pathOK grammar (s.elements_indices ++ [0]) = true from hok1)
                      have hstep2 : step grammar segments
                          (⟨s.segment_index, s.elements_indices ++ [0], s.repeats + 1,
                            ⟨m, r, l, d, []⟩ :: s.last_containers, s.data⟩ : MatchState) =
                          StepResult.next ⟨s.segment_index + 1, s.elements_indices ++ [0],
                            s.repeats + 1 + 1,
                            (add_element (some (sl.getD t0))
                              (ResultNode.segment seg.data t0 (sl.getD t0) sd)
                              (⟨m, r, l, d, []⟩ :: s.last_containers) s.data).1,
                            (add_element (some (sl.getD t0))
                              (ResultNode.segment seg.data t0 (sl.getD t0) sd)
                              (⟨m, r, l, d, []⟩ :: s.last_containers) s.data).2⟩ :=
                        step_eq_segment_ok hterm1
                          (show segments.get? s.segment_index = some seg from hseg)
                          hskip hel1 hps2
                      refine ⟨k + 1 + 1, ?_⟩
                      rw [process_segments, hstep1]
                      dsimp only
                      rw [process_segments, hstep2]
                      exact hk
                  · -- Group skipped: potential shrinks.
                    obtain ⟨k, hk⟩ := ihpot
                      ⟨s.segment_index, incrLast s.elements_indices, 0, s.last_containers, s.data⟩
                      (show segments.length - s.segment_index ≤ rem + 1 from hrem)
                      (show pathPot grammar (incrLast s.elements_indices) ≤ pot by
                        have h2 := pathPot_incrLast_lt s.elements_indices grammar _ hel
                        omega)
                      (show pathOK grammar (incrLast s.elements_indices) = true from
                        pathOK_incrLast _ _ _ hel hok)
                    refine ⟨k + 1, ?_⟩
                    rw [process_segments, step_eq_group_ok hterm hseg hskip hel
                      (process_group_eq_skip hrep hf ht0)]
                    exact hk

/-- A run that stops normally stops exactly at the terminal condition:
the input is exhausted or the cursor path has emptied. -/
theorem process_segments_ok_halt {grammar : List Element} {segments : List InputSegment} :
    ∀ (fuel : Nat) (s s' : MatchState),
      process_segments grammar segments fuel s = some (Except.ok s') →
      s'.segment_index ≥ segments.length ∨ s'.elements_indices.length < 1 := by
  intro fuel
  induction fuel with
  | zero => intro s s' h; simp [process_segments] at h
  | succ k ih =>
    intro s s' h
    rw [process_segments] at h
    cases hst : step grammar segments s with
    | finished s0 =>
      rw [hst] at h
      simp at h
      obtain ⟨heq, hcond⟩ := step_finished_inversion hst
      rw [← h, heq]
      exact hcond
    | failed e => rw [hst] at h; simp at h
    | next s0 => rw [hst] at h; exact ih s0 s' h

end Termination

/-- Claim C9, counterexample: the claim's step taxonomy ("every step either
consumes one input segment or strictly advances the cursor (sibling-index
increment or path-level pop) at the same segment index") misses group
entry.  At the concrete start state over `gOpt2` with input `B`, one step
enters the group: the segment index is unchanged, yet the new path
`[0, 0]` is neither the sibling-increment nor the pop of the old path
`[0]`. -/
theorem c9_counterexample :
    step gOpt2 [segB] (startState []) =
      StepResult.next ⟨0, [0, 0], 1, [⟨false, 2, some "G", none, []⟩], []⟩ ∧
    (⟨0, [0, 0], 1, [⟨false, 2, some "G", none, []⟩], []⟩ : MatchState).segment_index =
      (startState []).segment_index ∧
    ¬ ([0, 0] : List Nat) = incrLast (startState []).elements_indices ∧
    ¬ ([0, 0] : List Nat) = (startState []).elements_indices.dropLast :=
  ⟨rfl, rfl, by decide, by decide⟩

/-- Claim C9, amended: the engine always terminates on finite grammar and
input — every step either consumes a segment, strictly advances the cursor
(sibling increment or pop) at the same segment index, raises, or enters a
group, in which case the immediately following step consumes the segment;
and a normal stop happens exactly when the segment index reaches the end
of the input or the path becomes empty. -/
theorem c9_engine_terminates :
    ∀ (grammar : List Element) (segments : List InputSegment) (d0 : ResultDict),
      (∃ k r, process_segments grammar segments k (startState d0) = some r) ∧
      (∀ k s', process_segments grammar segments k (startState d0) = some (Except.ok s') →
        s'.segment_index ≥ segments.length ∨ s'.elements_indices.length < 1) := by
  intro grammar segments d0
  constructor
  · have htot : ∃ k, (process_segments grammar segments k (startState d0)).isSome = true :=
      process_segments_total (startState d0) (pathOK_zero grammar)
    obtain ⟨k, hk⟩ := htot
    obtain ⟨r, hr⟩ := Option.isSome_iff_exists.mp hk
    exact ⟨k, r, hr⟩
  · intro k s' h
    exact process_segments_ok_halt k _ s' h

/-- Witness for the amended claim C9 at the concrete C1 scenario run. -/
theorem c9_engine_terminates_witness :
    (⟨3, [1, 1], 0, [⟨false, 2, some "G1", none, [(some "B", [nodeB])]⟩],
      [(some "A", [nodeA]), (some "G1", [g1Node])]⟩ : MatchState).segment_index ≥
        ([segA, segB, segB] : List InputSegment).length ∨
    (⟨3, [1, 1], 0, [⟨false, 2, some "G1", none, [(some "B", [nodeB])]⟩],
      [(some "A", [nodeA]), (some "G1", [g1Node])]⟩ : MatchState).elements_indices.length < 1 :=
  (c9_engine_terminates gScenario [segA, segB, segB] []).2 10
    ⟨3, [1, 1], 0, [⟨false, 2, some "G1", none, [(some "B", [nodeB])]⟩],
     [(some "A", [nodeA]), (some "G1", [g1Node])]⟩ rfl

end Edifact
